import Mathlib

/-! # black: a growable block allocator (black.hpp)

Shallow embedding of the two allocation subsystems of black.hpp
(BitAllocationSubsystem and LinkedListAllocationSubsystem) and of the
growable BlockAllocator that chains subsystem instances.

Conventions of the embedding.

* Addresses are integers counted in blocks (one unit is one Bucket, that is
  kBlockSize bytes), so the pointer difference ptr - _first of the source is
  an integer subtraction. The null pointer is address 0.
* A pointer returned by allocate is an Option: none is nullptr.
* std::uint_fast64_t and std::size_t are 64 bit words: natural numbers with
  explicit reduction modulo 2 ^ 64 where the source can wrap.
* A pointer into the _freeList array is the index of the slot it points to
  (Option Nat, none is nullptr).
-/

namespace Black

/-! ## Bitmask subsystem -/

namespace detail

/-- The template detail::NBitmask: value = (1ull << (N - 1)) | NBitmask<N - 1>::value,
with NBitmask<0>::value = 1. It is only instantiated for N from 1 to 64. -/
def NBitmask : Nat → Nat
  | 0 => 1
  | n + 1 => (1 <<< n) ||| NBitmask n

end detail

/-- The switch of BitAllocationSubsystem::NBit: cases 1 to 64 return
NBitmask<n>::value, the default case returns 0. -/
def NBit (n : Nat) : Nat :=
  if 1 ≤ n ∧ n ≤ 64 then detail.NBitmask n else 0

/-- State of a BitAllocationSubsystem: the occupancy word _freeBlockList and
the address _first of block 0 of the bucket. -/
structure BitAllocationSubsystem where
  freeBlockList : Nat
  first : Int
deriving DecidableEq

namespace BitAllocationSubsystem

/-- The number of blocks of a bucket, kAllocatableObjectCount. -/
def kAllocatableObjectCount : Nat := 64

/-- The constructor: _freeBlockList is value initialised to 0. -/
def new (first : Int) : BitAllocationSubsystem :=
  { freeBlockList := 0, first := first }

/-- The for loop of allocate. The first argument counts the iterations that
remain before i reaches the loop bound; i is the loop counter and bitmask the
shifted mask. On the first usable position the result is the position and the
new occupancy word; none when the loop runs to its bound. -/
def allocateLoop (w : Nat) : Nat → Nat → Nat → Option (Nat × Nat)
  | 0, _, _ => none
  | k + 1, i, bitmask =>
    if w &&& bitmask = 0 then some (i, w ||| bitmask)
    else allocateLoop w k (i + 1) ((bitmask <<< 1) % 2 ^ 64)

/-- The loop bound kAllocatableObjectCount - n, computed in std::size_t
(modulo 2 ^ 64; n is a std::size_t, so n < 2 ^ 64). -/
def loopBound (n : Nat) : Nat :=
  (kAllocatableObjectCount + 2 ^ 64 - n) % 2 ^ 64

/-- BitAllocationSubsystem::allocate: the returned pointer (none is nullptr)
and the state after the call. -/
def allocate (s : BitAllocationSubsystem) (n : Nat) :
    Option Int × BitAllocationSubsystem :=
  if s.freeBlockList = 0xffffffffffffffff then (none, s)
  else
    match allocateLoop s.freeBlockList (loopBound n) 0 (NBit n) with
    | some (i, w) => (some (s.first + (i : Int)), { s with freeBlockList := w })
    | none => (none, s)

/-- BitAllocationSubsystem::deallocate: the returned flag and the state after
the call. The complement is taken in 64 bits and the shift is truncated to
64 bits. -/
def deallocate (s : BitAllocationSubsystem) (ptr : Int) (n : Nat) :
    Bool × BitAllocationSubsystem :=
  let index := ptr - s.first
  if index < 0 then (false, s)
  else if index ≥ 64 then (false, s)
  else
    (true, { s with
      freeBlockList :=
        s.freeBlockList &&& (2 ^ 64 - 1 - (NBit n <<< index.toNat) % 2 ^ 64) })

end BitAllocationSubsystem

/-! ## Growable allocator over the bitmask subsystem -/

/-- State of a BlockAllocator over BitAllocationSubsystem: the chain of arena
nodes. The constructor creates the first node, so the chain is never empty:
head is the subsystem of the node _allocators points to and rest holds the
subsystems of the nodes reached through next, in chain order. -/
structure BlockAllocator where
  head : BitAllocationSubsystem
  rest : List BitAllocationSubsystem
deriving DecidableEq

namespace BlockAllocator

/-- All subsystems of the chain, in chain order. -/
def nodes (a : BlockAllocator) : List BitAllocationSubsystem :=
  a.head :: a.rest

/-- The constructor. The argument storage stands for std::allocator: storage k
is the bucket address of the k-th node it hands out (k = 0 for the node made
by the constructor). -/
def new (storage : Nat → Int) : BlockAllocator :=
  { head := BitAllocationSubsystem.new (storage 0), rest := [] }

/-- The while loop of BlockAllocator::allocate followed by the growth step.
cur is the subsystem of the node the loop variable points to, k its position
in the chain and the list argument the nodes after it. When the last node
fails, allocateNewNode appends a fresh node and the result is that of
allocate(1) on the fresh node. Result: pointer, new cur, new nodes after cur. -/
def allocateFrom (storage : Nat → Int) (n : Nat) :
    Nat → BitAllocationSubsystem → List BitAllocationSubsystem →
      Option Int × BitAllocationSubsystem × List BitAllocationSubsystem
  | k, cur, [] =>
    match cur.allocate n with
    | (some p, cur1) => (some p, cur1, [])
    | (none, cur1) =>
      let r := (BitAllocationSubsystem.new (storage (k + 1))).allocate 1
      (r.1, cur1, [r.2])
  | k, cur, nxt :: more =>
    match cur.allocate n with
    | (some p, cur1) => (some p, cur1, nxt :: more)
    | (none, cur1) =>
      let r := allocateFrom storage n (k + 1) nxt more
      (r.1, cur1, r.2.1 :: r.2.2)

/-- BlockAllocator::allocate: the returned pointer and the state after. -/
def allocate (storage : Nat → Int) (a : BlockAllocator) (n : Nat) :
    Option Int × BlockAllocator :=
  let r := allocateFrom storage n 0 a.head a.rest
  (r.1, { head := r.2.1, rest := r.2.2 })

/-- The while loop of BlockAllocator::deallocate over the nodes after the
head: the first subsystem whose deallocate returns true stops the scan. -/
def deallocateFrom (ptr : Int) (n : Nat) :
    List BitAllocationSubsystem → List BitAllocationSubsystem
  | [] => []
  | cur :: more =>
    match cur.deallocate ptr n with
    | (true, cur1) => cur1 :: more
    | (false, cur1) => cur1 :: deallocateFrom ptr n more

/-- BlockAllocator::deallocate: the state after the call. -/
def deallocate (a : BlockAllocator) (ptr : Int) (n : Nat) : BlockAllocator :=
  match a.head.deallocate ptr n with
  | (true, h1) => { head := h1, rest := a.rest }
  | (false, h1) => { head := h1, rest := deallocateFrom ptr n a.rest }

end BlockAllocator

/-- A call on an allocator: allocate(n) or deallocate(ptr, n). -/
inductive Op where
  | allocate (n : Nat)
  | deallocate (ptr : Int) (n : Nat)
deriving DecidableEq

namespace BlockAllocator

/-- One call on the growable allocator. -/
def step (storage : Nat → Int) (a : BlockAllocator) : Op → BlockAllocator
  | Op.allocate n => (a.allocate storage n).2
  | Op.deallocate ptr n => a.deallocate ptr n

/-- The state reached from a freshly constructed allocator by a sequence of
calls. -/
def run (storage : Nat → Int) (ops : List Op) : BlockAllocator :=
  ops.foldl (step storage) (new storage)

/-- The pointers returned by a sequence of allocate calls (no deallocate in
between), in call order, together with the state after them. -/
def allocateAll (storage : Nat → Int) :
    BlockAllocator → List Nat → List (Option Int) × BlockAllocator
  | a, [] => ([], a)
  | a, n :: ns =>
    let r := a.allocate storage n
    let rs := allocateAll storage r.2 ns
    (r.1 :: rs.1, rs.2)

end BlockAllocator

/-- A storage allocator that places the bucket of the k-th node at block
address 1000 * (k + 1): the buckets (64 blocks each) are pairwise disjoint. -/
def storage1000 (k : Nat) : Int := 1000 * ((k : Int) + 1)

/-- The block ranges [p, p + n) and [q, q + m) have a block in common. -/
def rangesOverlap (p : Int) (n : Nat) (q : Int) (m : Nat) : Prop :=
  p < q + (m : Int) ∧ q < p + (n : Int)

instance (p : Int) (n : Nat) (q : Int) (m : Nat) : Decidable (rangesOverlap p n q m) :=
  inferInstanceAs (Decidable (_ ∧ _))

namespace BitAllocationSubsystem

/-- The pointers returned by a sequence of allocate calls on one subsystem, in
call order, together with the state after them. -/
def allocateAll : BitAllocationSubsystem → List Nat → List (Option Int) × BitAllocationSubsystem
  | s, [] => ([], s)
  | s, n :: ns =>
    let r := s.allocate n
    let rs := allocateAll r.2 ns
    (r.1 :: rs.1, rs.2)

end BitAllocationSubsystem

/-! ## Free-list subsystem -/

/-- How a call of the free-list subsystem ends. -/
inductive Outcome (α : Type) where
  /-- The call returns. -/
  | ret (a : α)
  /-- The call dereferences a null slot pointer, or a slot pointer outside
  the _freeList array: undefined behaviour. -/
  | fault
  /-- The loop of the call did not finish within the given number of steps. -/
  | fuelOut
deriving DecidableEq

/-- State of a LinkedListAllocationSubsystem<T, N>: freeList[i] is
_freeList[i].next, freeListTop is _freeListTop, first is the address of block 0
of the bucket. N (kAllocatableObjectCount) is the length of freeList. -/
structure LinkedListAllocationSubsystem where
  freeList : List (Option Nat)
  freeListTop : Option Nat
  first : Int
deriving DecidableEq

namespace LinkedListAllocationSubsystem

/-- The capacity, kAllocatableObjectCount. -/
def kAllocatableObjectCount (s : LinkedListAllocationSubsystem) : Nat :=
  s.freeList.length

/-- The constructor for capacity N: _freeListTop points to slot 0 and the loop
links slot i - 1 to slot i for i from 1 to N - 1. The constructor does not
write the link of the last slot; it is null here, as it is when the object
lives in zero initialised storage (the value initialisation of the arena node
in BlockAllocator). -/
def new (N : Nat) (first : Int) : LinkedListAllocationSubsystem :=
  { freeList := (List.range N).map (fun i => if i + 1 < N then some (i + 1) else none)
    freeListTop := some 0
    first := first }

/-- The while loop of allocate, run for at most the given number of
iterations. Result: none when the loop returns nullptr, otherwise the values
of prev, candidate and tail at the exit of the loop. -/
def allocateLoop (fl : List (Option Nat)) (n : Nat) :
    Nat → Nat → Nat → Nat → Nat → Outcome (Option (Nat × Nat × Nat))
  | 0, prev, candidate, tail, areaLength =>
    if areaLength < n then Outcome.fuelOut
    else Outcome.ret (some (prev, candidate, tail))
  | fuel + 1, prev, candidate, tail, areaLength =>
    if areaLength < n then
      match fl[tail]? with
      | none => Outcome.fault
      | some none => Outcome.ret none
      | some (some nx) =>
        if tail + 1 ≠ nx then allocateLoop fl n fuel tail nx nx 1
        else allocateLoop fl n fuel prev candidate nx (areaLength + 1)
    else Outcome.ret (some (prev, candidate, tail))

/-- LinkedListAllocationSubsystem::allocate with a bound on the number of loop
iterations: the returned pointer (none is nullptr) and the state after. -/
def allocate (fuel : Nat) (s : LinkedListAllocationSubsystem) (n : Nat) :
    Outcome (Option Int × LinkedListAllocationSubsystem) :=
  match s.freeListTop with
  | none => Outcome.ret (none, s)
  | some top =>
    match allocateLoop s.freeList n fuel top top top 1 with
    | Outcome.fuelOut => Outcome.fuelOut
    | Outcome.fault => Outcome.fault
    | Outcome.ret none => Outcome.ret (none, s)
    | Outcome.ret (some (prev, candidate, tail)) =>
      match s.freeList[tail]? with
      | none => Outcome.fault
      | some tailNext =>
        if candidate = top then
          Outcome.ret (some (s.first + (candidate : Int)), { s with freeListTop := tailNext })
        else if prev < s.freeList.length then
          Outcome.ret (some (s.first + (candidate : Int)),
            { s with freeList := s.freeList.set prev tailNext })
        else Outcome.fault

/-- LinkedListAllocationSubsystem::inRange. The index is cast to std::size_t
(reduction modulo 2 ^ 64) before the comparison with the capacity. -/
def inRange (s : LinkedListAllocationSubsystem) (ptr : Int) : Bool :=
  if ptr = 0 then false
  else
    let index := ((ptr - s.first) % 2 ^ 64).toNat
    decide (0 ≤ index ∧ index < s.freeList.length)

/-- The comparison node < other of two slot pointers, by address: the null
pointer is address 0, below every slot of the array. -/
def ptrLt : Option Nat → Option Nat → Bool
  | _, none => false
  | none, some _ => true
  | some i, some j => decide (i < j)

/-- The loop for (i = 0; i < n; ++i) node = node->next of deallocate: the
pointer held by node after n steps. -/
def follow (fl : List (Option Nat)) : Nat → Option Nat → Outcome (Option Nat)
  | 0, node => Outcome.ret node
  | _ + 1, none => Outcome.fault
  | i + 1, some j =>
    match fl[j]? with
    | none => Outcome.fault
    | some nx => follow fl i nx

/-- The while loop of the else branch of deallocate, run for at most the given
number of iterations: the values of prevNode and nextNode at its exit. -/
def scan (fl : List (Option Nat)) (node : Nat) :
    Nat → Nat → Option Nat → Outcome (Nat × Option Nat)
  | _, prevNode, none => Outcome.ret (prevNode, none)
  | 0, prevNode, some nx =>
    if node < nx then Outcome.fuelOut else Outcome.ret (prevNode, some nx)
  | fuel + 1, prevNode, some nx =>
    if node < nx then
      match fl[nx]? with
      | none => Outcome.fault
      | some nn => scan fl node fuel nx nn
    else Outcome.ret (prevNode, some nx)

/-- The tail of both branches of deallocate: advance node n times along
next, then store target in node->next. -/
def relink (fl : List (Option Nat)) (n : Nat) (node : Nat) (target : Option Nat) :
    Outcome (List (Option Nat)) :=
  match follow fl n (some node) with
  | Outcome.fuelOut => Outcome.fuelOut
  | Outcome.fault => Outcome.fault
  | Outcome.ret none => Outcome.fault
  | Outcome.ret (some j) =>
    if j < fl.length then Outcome.ret (fl.set j target) else Outcome.fault

/-- LinkedListAllocationSubsystem::deallocate with a bound on the number of
iterations of its while loop: the returned flag and the state after. Past the
inRange test the signed index of the source is the value inRange compared
with the capacity. -/
def deallocate (fuel : Nat) (s : LinkedListAllocationSubsystem) (ptr : Int) (n : Nat) :
    Outcome (Bool × LinkedListAllocationSubsystem) :=
  if s.inRange ptr = false then Outcome.ret (false, s)
  else
    let node := ((ptr - s.first) % 2 ^ 64).toNat
    if ptrLt (some node) s.freeListTop then
      match relink s.freeList n node s.freeListTop with
      | Outcome.ret fl1 =>
        Outcome.ret (true, { s with freeListTop := some node, freeList := fl1 })
      | Outcome.fault => Outcome.fault
      | Outcome.fuelOut => Outcome.fuelOut
    else
      match s.freeListTop with
      | none => Outcome.fault
      | some top =>
        match s.freeList[top]? with
        | none => Outcome.fault
        | some topNext =>
          match scan s.freeList node fuel top topNext with
          | Outcome.fuelOut => Outcome.fuelOut
          | Outcome.fault => Outcome.fault
          | Outcome.ret (prevNode, nextNode) =>
            if prevNode < s.freeList.length then
              match relink (s.freeList.set prevNode (some node)) n node nextNode with
              | Outcome.ret fl1 => Outcome.ret (true, { s with freeList := fl1 })
              | Outcome.fault => Outcome.fault
              | Outcome.fuelOut => Outcome.fuelOut
            else Outcome.fault

/-- Walk of the free chain from a slot pointer for at most the given number of
steps: the block indices visited when the walk reaches the null end, none
when it does not (or leaves the array). -/
def chainWalk (fl : List (Option Nat)) : Nat → Option Nat → Option (List Nat)
  | _, none => some []
  | 0, some _ => none
  | fuel + 1, some i =>
    match fl[i]? with
    | none => none
    | some nx => (chainWalk fl fuel nx).map (fun l => i :: l)

/-- The free chain from the head is finite, ends in null and visits block
indices in strictly increasing order (all of them inside the array, since
every visited slot is read). -/
def StrictlyIncreasingChain (s : LinkedListAllocationSubsystem) : Prop :=
  ∃ fuel l, chainWalk s.freeList fuel s.freeListTop = some l ∧ l.Pairwise (· < ·)

/-- One call on the subsystem; the state after it, with its returned pointer
when the call is allocate. -/
def step (fuel : Nat) (s : LinkedListAllocationSubsystem) :
    Op → Outcome (Option Int × LinkedListAllocationSubsystem)
  | Op.allocate n => allocate fuel s n
  | Op.deallocate ptr n =>
    match deallocate fuel s ptr n with
    | Outcome.ret r => Outcome.ret (none, r.2)
    | Outcome.fault => Outcome.fault
    | Outcome.fuelOut => Outcome.fuelOut

/-- A sequence of calls from a given state: the pointers returned by the
allocate calls (none for a deallocate call), in call order, and the final
state. -/
def runFrom (fuel : Nat) :
    LinkedListAllocationSubsystem → List Op →
      Outcome (List (Option Int) × LinkedListAllocationSubsystem)
  | s, [] => Outcome.ret ([], s)
  | s, op :: ops =>
    match step fuel s op with
    | Outcome.ret r =>
      match runFrom fuel r.2 ops with
      | Outcome.ret rs => Outcome.ret (r.1 :: rs.1, rs.2)
      | Outcome.fault => Outcome.fault
      | Outcome.fuelOut => Outcome.fuelOut
    | Outcome.fault => Outcome.fault
    | Outcome.fuelOut => Outcome.fuelOut

end LinkedListAllocationSubsystem

/-! ## Block size -/

namespace detail

/-- The template detail::BlockSizeImpl<ObjectSize, CurrentSize, Align>: the
specialisation for CurrentSize equal to ObjectSize yields ObjectSize, the
primary template recurses with CurrentSize + Align (a std::size_t, so the sum
is reduced modulo 2 ^ 64). The first argument bounds the number of nested
instantiations; none when the bound is reached. -/
def BlockSizeImpl (objectSize align : Nat) : Nat → Nat → Option Nat
  | 0, currentSize => if currentSize = objectSize then some objectSize else none
  | fuel + 1, currentSize =>
    if currentSize = objectSize then some objectSize
    else BlockSizeImpl objectSize align fuel ((currentSize + align) % 2 ^ 64)

/-- The template detail::BlockSize<Size, Align>: BlockSizeImpl<Size, Align, Align>. -/
def BlockSize (fuel size align : Nat) : Option Nat :=
  BlockSizeImpl size align fuel align

end detail

/-- The roundUp of the data model of the specification, written from its
words: s rounded up to a multiple of a. -/
def specRoundUp (s a : Nat) : Nat := (s + a - 1) / a * a

/-! ## Bitmask subsystem: outstanding runs -/

namespace BitAllocationSubsystem

/-- Blocks j to j + n - 1 are all free in the occupancy word w. -/
def runFree (w n j : Nat) : Prop := ∀ k, k < n → w.testBit (j + k) = false

instance (w n j : Nat) : Decidable (runFree w n j) :=
  inferInstanceAs (Decidable (∀ k, k < n → w.testBit (j + k) = false))

/-- One call on a subsystem together with the list of its outstanding runs
(address and length of every run returned by allocate and not yet released).
An allocate(n) call with n from 1 to 64 records the run it returns; a
deallocate(ptr, n) call must release an outstanding run with its original n
and removes it from the list. The result is none for a call outside these
rules. -/
def stepTracked (t : BitAllocationSubsystem × List (Int × Nat)) :
    Op → Option (BitAllocationSubsystem × List (Int × Nat))
  | Op.allocate n =>
    if 1 ≤ n ∧ n ≤ 64 then
      match t.1.allocate n with
      | (some p, s1) => some (s1, (p, n) :: t.2)
      | (none, s1) => some (s1, t.2)
    else none
  | Op.deallocate ptr n =>
    if (ptr, n) ∈ t.2 then some ((t.1.deallocate ptr n).2, t.2.erase (ptr, n)) else none

/-- A sequence of calls with the outstanding runs tracked; none when a call of
the sequence is outside the rules of stepTracked. -/
def runTracked :
    BitAllocationSubsystem × List (Int × Nat) → List Op →
      Option (BitAllocationSubsystem × List (Int × Nat))
  | t, [] => some t
  | t, op :: ops =>
    match stepTracked t op with
    | none => none
    | some t1 => runTracked t1 ops

/-- Invariant of a tracked subsystem with its bucket at first: bit b of the
occupancy word is set exactly when block b lies in an outstanding run, the
outstanding runs are pairwise disjoint, and every outstanding run has at
least one block and lies within blocks 0 to 62 of the bucket. -/
def TrackedInv (first : Int) (t : BitAllocationSubsystem × List (Int × Nat)) : Prop :=
  t.1.first = first
    ∧ (∀ b : Nat, t.1.freeBlockList.testBit b = true
        ↔ ∃ r ∈ t.2, r.1 ≤ first + (b : Int) ∧ first + (b : Int) < r.1 + (r.2 : Int))
    ∧ t.2.Pairwise (fun r q => ¬ rangesOverlap r.1 r.2 q.1 q.2)
    ∧ ∀ r ∈ t.2, ∃ i : Nat, r.1 = first + (i : Int) ∧ 1 ≤ r.2 ∧ i + r.2 ≤ 63

end BitAllocationSubsystem

namespace LinkedListAllocationSubsystem

/-- Following the links from the slot pointer p visits exactly the slots of
the list, in order, and then arrives at the slot pointer q. -/
def ChainSeg (fl : List (Option Nat)) : Option Nat → List Nat → Option Nat → Prop
  | p, [], q => p = q
  | p, i :: t, q => p = some i ∧ ∃ nx, fl[i]? = some nx ∧ ChainSeg fl nx t q

/-- The n consecutive block indices c, c + 1, ..., c + n - 1 are all on the
chain l. -/
def hasRun (l : List Nat) (n c : Nat) : Prop := ∀ j, j < n → c + j ∈ l

end LinkedListAllocationSubsystem

/-! ## Bitmask subsystem: arbitrary call sequences -/

namespace BitAllocationSubsystem

/-- One call on the subsystem with arbitrary arguments: the state after it. -/
def step (s : BitAllocationSubsystem) : Op → BitAllocationSubsystem
  | Op.allocate n => (s.allocate n).2
  | Op.deallocate ptr n => (s.deallocate ptr n).2

/-- The state reached from a fresh subsystem with its bucket at first by a
sequence of calls with arbitrary arguments. -/
def run (first : Int) (ops : List Op) : BitAllocationSubsystem :=
  ops.foldl step (new first)

end BitAllocationSubsystem

end Black

/-! # Theorems -/

namespace Black

/-! ## Growable allocator -/

/-- A fresh subsystem serves allocate(1) with block 0 of its bucket. -/
theorem BitAllocationSubsystem.allocate_one_new (b : Int) :
    (BitAllocationSubsystem.new b).allocate 1 = (some b, { freeBlockList := 1, first := b }) := by
  simp [BitAllocationSubsystem.allocate, BitAllocationSubsystem.new,
    BitAllocationSubsystem.loopBound, BitAllocationSubsystem.kAllocatableObjectCount, NBit,
    detail.NBitmask, BitAllocationSubsystem.allocateLoop]

/-- The probe loop with its growth step returns a pointer from every node of
every chain. -/
theorem BlockAllocator.allocateFrom_isSome (storage : Nat → Int) (n : Nat) :
    ∀ (more : List BitAllocationSubsystem) (k : Nat) (cur : BitAllocationSubsystem),
      ∃ p, (BlockAllocator.allocateFrom storage n k cur more).1 = some p := by
  intro more
  induction more with
  | nil =>
    intro k cur
    unfold BlockAllocator.allocateFrom
    split
    · exact ⟨_, rfl⟩
    · exact ⟨storage (k + 1), by simp [BitAllocationSubsystem.allocate_one_new]⟩
  | cons nxt more ih =>
    intro k cur
    unfold BlockAllocator.allocateFrom
    split
    · exact ⟨_, rfl⟩
    · exact ih (k + 1) nxt

/-- C1: in every state reached from a freshly constructed growable allocator
by any sequence of allocate and deallocate calls (arbitrary arguments),
allocate(n) with n >= 1 returns a non-null address, whatever addresses the
storage allocator hands out. -/
theorem C1_allocate_never_null (storage : Nat → Int) (ops : List Op) (n : Nat)
    (_hn : 1 ≤ n) :
    ∃ p, ((BlockAllocator.run storage ops).allocate storage n).1 = some p :=
  BlockAllocator.allocateFrom_isSome storage n _ 0 _

/-- Witness of C1: after 5 * 64 - 1 calls of allocate(1) on a fresh allocator
the next allocate(1), the 5 * 64-th, returns a non-null address. -/
theorem C1_allocate_never_null_witness :
    1 ≤ 1 ∧ ∃ p, ((BlockAllocator.run storage1000
      (List.replicate (5 * 64 - 1) (Op.allocate 1))).allocate storage1000 1).1 = some p :=
  ⟨by decide, C1_allocate_never_null storage1000 _ 1 (by decide)⟩

/-- C2, the code at the failing input: three calls of allocate(40) on a fresh
allocator return the addresses 1000, 2000 and 2001, so the second and the
third returned run of 40 blocks have blocks in common. -/
theorem C2_growth_ranges_overlap :
    (BlockAllocator.allocateAll storage1000 (BlockAllocator.new storage1000) [40, 40, 40]).1
        = [some 1000, some 2000, some 2001]
      ∧ rangesOverlap 2000 40 2001 40 := by
  decide

/-- C3, the code at the failing input: the second allocate(40) on a fresh
allocator finds the only node exhausted for the request, appends a node and
returns its block 0, and the appended node records block 0 alone as allocated
(occupancy word 1, not the 40 bit mask). -/
theorem C3_growth_marks_one_block :
    ((BlockAllocator.new storage1000).allocate storage1000 40).2
        = { head := { freeBlockList := 2 ^ 40 - 1, first := 1000 }, rest := [] }
      ∧ (BitAllocationSubsystem.allocate { freeBlockList := 2 ^ 40 - 1, first := 1000 } 40).1
        = none
      ∧ BlockAllocator.allocate storage1000
          { head := { freeBlockList := 2 ^ 40 - 1, first := 1000 }, rest := [] } 40
        = (some 2000,
            { head := { freeBlockList := 2 ^ 40 - 1, first := 1000 },
              rest := [{ freeBlockList := 1, first := 2000 }] }) := by
  decide

/-! ## Bitmask subsystem -/

/-- The loop bound of allocate(64) is 0: the call fails in every state and
leaves the state as it is. -/
theorem BitAllocationSubsystem.allocate_sixtyfour (s : BitAllocationSubsystem) :
    s.allocate 64 = (none, s) := by
  unfold BitAllocationSubsystem.allocate
  split
  · rfl
  · rfl

/-- C4, the code at two failing inputs: on the empty occupancy word
allocate(64) fails although bits 0 to 63 are clear, and on the word with
exactly bits 0 to 62 set allocate(1) fails although bit 63 is clear. -/
theorem C4_last_position_not_tried :
    BitAllocationSubsystem.allocate { freeBlockList := 0, first := 1000 } 64
        = (none, { freeBlockList := 0, first := 1000 })
      ∧ (∀ j, j < 64 → Nat.testBit 0 j = false)
      ∧ BitAllocationSubsystem.allocate { freeBlockList := 2 ^ 63 - 1, first := 1000 } 1
        = (none, { freeBlockList := 2 ^ 63 - 1, first := 1000 })
      ∧ Nat.testBit (2 ^ 63 - 1) 63 = false := by
  refine ⟨BitAllocationSubsystem.allocate_sixtyfour _, ?_, ?_, ?_⟩
  · intro j _
    exact Nat.zero_testBit j
  · decide
  · decide

/-- C5, the code at the failing input: of 64 consecutive allocate(1) calls on
a fresh subsystem the first 63 return the blocks 0 to 62 and the 64th returns
the no-space result; the occupancy word is then 2 ^ 63 - 1. -/
theorem C5_sixtyfourth_single_fails :
    BitAllocationSubsystem.allocateAll (BitAllocationSubsystem.new 1000) (List.replicate 64 1)
      = ((List.range 63).map (fun i => some (1000 + (i : Int))) ++ [none],
          { freeBlockList := 2 ^ 63 - 1, first := 1000 }) := by
  decide

/-- For a request of more than 64 blocks the mask is 0 and the loop bound
wraps to a positive value, so the first loop iteration succeeds: allocate
returns block 0 and leaves the occupancy word as it is, unless the word is
saturated. -/
theorem BitAllocationSubsystem.allocate_oversized (s : BitAllocationSubsystem) (n : Nat)
    (hn : 64 < n) (hn64 : n < 2 ^ 64) (hs : s.freeBlockList ≠ 0xffffffffffffffff) :
    s.allocate n = (some s.first, s) := by
  have hbit : NBit n = 0 := by
    unfold NBit
    rw [if_neg (by omega)]
  have hb : BitAllocationSubsystem.loopBound n = (2 ^ 64 + 64 - n - 1) + 1 := by
    unfold BitAllocationSubsystem.loopBound BitAllocationSubsystem.kAllocatableObjectCount
    have h1 : 64 + 2 ^ 64 - n < 2 ^ 64 := by omega
    rw [Nat.mod_eq_of_lt h1]
    omega
  unfold BitAllocationSubsystem.allocate
  rw [if_neg hs, hbit, hb]
  simp [BitAllocationSubsystem.allocateLoop]

/-- C6, the code at the failing input: allocate(65) on a fresh subsystem
returns block 0 of the bucket, not the no-space result (the occupancy word
stays 0). -/
theorem C6_oversized_request_succeeds :
    (BitAllocationSubsystem.new 1000).allocate 65
      = (some 1000, BitAllocationSubsystem.new 1000) :=
  BitAllocationSubsystem.allocate_oversized (BitAllocationSubsystem.new 1000) 65
    (by decide) (by decide) (by decide)

/-! ## Free-list subsystem -/

namespace LinkedListAllocationSubsystem

/-- A strictly increasing list of numbers between lo and N has at most N - lo
entries. -/
theorem pairwise_lt_length_le :
    ∀ (l : List Nat) (lo N : Nat), l.Pairwise (· < ·) → (∀ x ∈ l, lo ≤ x ∧ x < N) →
      l.length ≤ N - lo := by
  intro l
  induction l with
  | nil =>
    intro lo N _ _
    simp
  | cons a t ih =>
    intro lo N hp hb
    rw [List.pairwise_cons] at hp
    have ha := hb a (List.mem_cons_self a t)
    have := ih (a + 1) N hp.2 (fun x hx => ⟨hp.1 x hx, (hb x (List.mem_cons_of_mem a hx)).2⟩)
    simp only [List.length_cons]
    omega

/-- A chain walk that starts at a slot and reaches the null end reads the
slot and continues from its link. -/
theorem chainWalk_some_cons (fl : List (Option Nat)) :
    ∀ (fuel : Nat) (i : Nat) (l : List Nat), chainWalk fl fuel (some i) = some l →
      ∃ f nx t, fuel = f + 1 ∧ fl[i]? = some nx ∧ chainWalk fl f nx = some t ∧ l = i :: t := by
  intro fuel i l h
  cases fuel with
  | zero => simp [chainWalk] at h
  | succ f =>
    unfold chainWalk at h
    cases hnx : fl[i]? with
    | none => simp [hnx] at h
    | some nx =>
      simp only [hnx, Option.map_eq_some'] at h
      obtain ⟨t, ht, rfl⟩ := h
      exact ⟨f, nx, t, rfl, rfl, ht, rfl⟩

/-- Every index visited by a chain walk is a slot of the array. -/
theorem chainWalk_mem_lt (fl : List (Option Nat)) :
    ∀ (l : List Nat) (fuel : Nat) (p : Option Nat), chainWalk fl fuel p = some l →
      ∀ x ∈ l, x < fl.length := by
  intro l
  induction l with
  | nil => intro _ _ _ x hx; simp at hx
  | cons a t ih =>
    intro fuel p h x hx
    cases p with
    | none =>
      cases fuel <;> simp [chainWalk] at h
    | some i =>
      obtain ⟨f, nx, t1, _, hnx, ht, hl⟩ := chainWalk_some_cons fl fuel i _ h
      injection hl with h1 h2
      subst h1 h2
      rcases List.mem_cons.mp hx with rfl | hx
      · by_contra hge
        rw [List.getElem?_eq_none (by omega)] at hnx
        cases hnx
      · exact ih f nx ht x hx

/-- A chain walk caught in a slot that links to itself never reaches the
null end. -/
theorem chainWalk_self_loop (fl : List (Option Nat)) (i : Nat) (h : fl[i]? = some (some i)) :
    ∀ fuel, chainWalk fl fuel (some i) = none := by
  intro fuel
  induction fuel with
  | zero => rfl
  | succ f ih =>
    unfold chainWalk
    rw [h]
    simp [ih]

/-- Loop invariant of the run search for a request above the capacity: while
tail walks a finite chain, areaLength stays at most tail + 1, hence below n,
and the loop returns nullptr when the chain ends, within as many iterations
as the chain has entries. -/
theorem allocateLoop_oversized (fl : List (Option Nat)) (n : Nat) (hn : fl.length < n) :
    ∀ (l : List Nat) (fuel0 tail : Nat), chainWalk fl fuel0 (some tail) = some l →
      ∀ (fuel prev candidate areaLength : Nat), l.length ≤ fuel → areaLength ≤ tail + 1 →
        allocateLoop fl n fuel prev candidate tail areaLength = Outcome.ret none := by
  intro l
  induction l with
  | nil =>
    intro fuel0 tail h
    obtain ⟨_, _, _, _, _, _, hl⟩ := chainWalk_some_cons fl fuel0 tail _ h
    cases hl
  | cons a t ih =>
    intro fuel0 tail h fuel prev candidate areaLength hfuel hlen
    obtain ⟨f0, nx, t1, _, hnx, ht, hl⟩ := chainWalk_some_cons fl fuel0 tail _ h
    injection hl with h1 h2
    subst h1 h2
    have htail : a < fl.length := by
      by_contra hge
      rw [List.getElem?_eq_none (by omega)] at hnx
      cases hnx
    have hlt : areaLength < n := by omega
    cases fuel with
    | zero => simp at hfuel
    | succ f =>
      simp only [List.length_cons, Nat.add_le_add_iff_right] at hfuel
      unfold allocateLoop
      rw [if_pos hlt, hnx]
      cases nx with
      | none => rfl
      | some m =>
        simp only
        split
        · exact ih f0 m ht f a m 1 hfuel (by omega)
        · next hm =>
          have hm1 : a + 1 = m := by simpa using hm
          exact ih f0 m ht f prev candidate (areaLength + 1) hfuel (by omega)

/-- C7: in every state of the free-list subsystem whose free chain is finite,
strictly increasing and ends in null (the empty chain included), allocate(n)
with n above the capacity N terminates within N loop iterations, returns the
no-space result and leaves the whole state, the free chain with it, as it
was. -/
theorem C7_allocate_oversized_fails (s : LinkedListAllocationSubsystem) (n fuel : Nat)
    (hwf : s.StrictlyIncreasingChain) (hn : s.kAllocatableObjectCount < n)
    (hfuel : s.kAllocatableObjectCount ≤ fuel) :
    allocate fuel s n = Outcome.ret (none, s) := by
  obtain ⟨fuel0, l, hl, hsorted⟩ := hwf
  unfold kAllocatableObjectCount at hn hfuel
  unfold allocate
  cases htop : s.freeListTop with
  | none => rfl
  | some top =>
    rw [htop] at hl
    have hlen : l.length ≤ s.freeList.length - 0 :=
      pairwise_lt_length_le l 0 _ hsorted
        (fun x hx => ⟨Nat.zero_le x, chainWalk_mem_lt s.freeList l fuel0 _ hl x hx⟩)
    simp only
    rw [allocateLoop_oversized s.freeList n hn l fuel0 top hl fuel top top 1
      (by omega) (by omega)]

/-- Witness of C7: a fragmented subsystem of capacity 8 whose free chain is
2, 4, 6, 7 refuses allocate(9) and keeps its state. -/
theorem C7_allocate_oversized_fails_witness :
    StrictlyIncreasingChain
        { freeList := [some 1, some 2, some 4, some 4, some 6, some 6, some 7, none],
          freeListTop := some 2, first := 1000 }
      ∧ kAllocatableObjectCount
          { freeList := [some 1, some 2, some 4, some 4, some 6, some 6, some 7, none],
            freeListTop := some 2, first := 1000 } < 9
      ∧ allocate 8
          { freeList := [some 1, some 2, some 4, some 4, some 6, some 6, some 7, none],
            freeListTop := some 2, first := 1000 } 9
        = Outcome.ret (none,
          { freeList := [some 1, some 2, some 4, some 4, some 6, some 6, some 7, none],
            freeListTop := some 2, first := 1000 }) :=
  have hwf : StrictlyIncreasingChain
      { freeList := [some 1, some 2, some 4, some 4, some 6, some 6, some 7, none],
        freeListTop := some 2, first := 1000 } :=
    ⟨8, [2, 4, 6, 7], by decide, by decide⟩
  ⟨hwf, by decide, C7_allocate_oversized_fails _ 9 8 hwf (by decide) (by decide)⟩

/-- C8, the code at the failing input: on a fresh subsystem of capacity 8,
allocate(5) and allocate(3) return blocks 0 and 5 and leave the free chain
empty (head null), allocate(1) then fails; the following deallocate of the
first run compares its slot with the null head, takes the else branch and
reads the link of the null head: it faults instead of returning success. -/
theorem C8_deallocate_on_empty_chain_faults :
    runFrom 8 (new 8 1000) [Op.allocate 5, Op.allocate 3, Op.allocate 1]
        = Outcome.ret ([some 1000, some 1005, none],
            { freeList := [some 1, some 2, some 3, some 4, some 5, some 6, some 7, none],
              freeListTop := none, first := 1000 })
      ∧ ∀ fuel, deallocate fuel
          { freeList := [some 1, some 2, some 3, some 4, some 5, some 6, some 7, none],
            freeListTop := none, first := 1000 } 1000 5 = Outcome.fault := by
  refine ⟨by decide, fun fuel => ?_⟩
  rfl

/-- C9, the code at the failing input: on a fresh subsystem of capacity 8,
after allocate(1) (block 0), allocate(1) (block 1) and deallocate of block 0,
allocate(2) returns the run of blocks 0 and 1, although block 1 is still
outstanding from the second call. -/
theorem C9_outstanding_block_issued_again :
    runFrom 8 (new 8 1000)
        [Op.allocate 1, Op.allocate 1, Op.deallocate 1000 1, Op.allocate 2]
      = Outcome.ret ([some 1000, some 1001, none, some 1000],
          { freeList := [some 1, some 2, some 3, some 4, some 5, some 6, some 7, none],
            freeListTop := some 2, first := 1000 })
      ∧ rangesOverlap 1001 1 1000 2 := by
  decide

/-- C10, the code at the failing input: on a fresh subsystem of capacity 8,
allocate(1) followed by deallocate of the returned block leaves slot 1 linked
to itself; the walk of the free chain from the head visits 0, 1, 1, 1, ... and
never reaches the null end, so the chain is not strictly increasing. -/
theorem C10_chain_cyclic_after_free :
    runFrom 8 (new 8 1000) [Op.allocate 1, Op.deallocate 1000 1]
        = Outcome.ret ([some 1000, none],
            { freeList := [some 1, some 1, some 3, some 4, some 5, some 6, some 7, none],
              freeListTop := some 0, first := 1000 })
      ∧ ¬ StrictlyIncreasingChain
            { freeList := [some 1, some 1, some 3, some 4, some 5, some 6, some 7, none],
              freeListTop := some 0, first := 1000 }
      ∧ ∀ fuel, chainWalk [some 1, some 1, some 3, some 4, some 5, some 6, some 7, none]
            fuel (some 0) = none := by
  have hloop : ∀ fuel, chainWalk [some 1, some 1, some 3, some 4, some 5, some 6, some 7, none]
      fuel (some 0) = none := by
    intro fuel
    cases fuel with
    | zero => rfl
    | succ f =>
      have h1 := chainWalk_self_loop
        [some 1, some 1, some 3, some 4, some 5, some 6, some 7, none] 1 rfl f
      unfold chainWalk
      simp [h1]
  refine ⟨by decide, ?_, hloop⟩
  rintro ⟨fuel, l, hl, _⟩
  rw [hloop fuel] at hl
  cases hl

end LinkedListAllocationSubsystem

/-! ## Block size -/

/-- Started at a multiple of the alignment not above the object size, the
recursion of BlockSizeImpl reaches the object size when the alignment divides
it. -/
theorem detail.BlockSizeImpl_multiple (a q : Nat) (ha : 1 ≤ a) (h64 : a * q < 2 ^ 64) :
    ∀ (d fuel j : Nat), j + d = q → d ≤ fuel →
      detail.BlockSizeImpl (a * q) a fuel (a * j) = some (a * q) := by
  intro d
  induction d with
  | zero =>
    intro fuel j hj _
    have : j = q := by omega
    subst this
    cases fuel <;> simp [detail.BlockSizeImpl]
  | succ d ih =>
    intro fuel j hj hfuel
    cases fuel with
    | zero => omega
    | succ f =>
      have hne : a * j ≠ a * q := by
        intro h
        have := Nat.eq_of_mul_eq_mul_left (by omega : 0 < a) h
        omega
      have hle : a * (j + 1) ≤ a * q := Nat.mul_le_mul_left a (by omega)
      have hexp : a * (j + 1) = a * j + a := Nat.mul_succ a j
      have hstep : (a * j + a) % 2 ^ 64 = a * (j + 1) := by
        rw [hexp]
        apply Nat.mod_eq_of_lt
        omega
      unfold detail.BlockSizeImpl
      rw [if_neg hne, hstep]
      exact ih f (j + 1) (by omega) (by omega)

/-- The roundUp of the specification is the least multiple of a that is at
least s. -/
theorem specRoundUp_least (s a : Nat) (ha : 1 ≤ a) :
    a ∣ specRoundUp s a ∧ s ≤ specRoundUp s a ∧ ∀ m, a ∣ m → s ≤ m → specRoundUp s a ≤ m := by
  unfold specRoundUp
  refine ⟨Nat.dvd_mul_left _ _, ?_, ?_⟩
  · have h := Nat.div_add_mod (s + a - 1) a
    have h2 := Nat.mod_lt (s + a - 1) (by omega : a > 0)
    have h3 : a * ((s + a - 1) / a) = (s + a - 1) / a * a := Nat.mul_comm _ _
    omega
  · rintro m ⟨k, rfl⟩ hle
    have : (s + a - 1) / a ≤ k := by
      apply Nat.le_of_lt_succ
      apply (Nat.div_lt_iff_lt_mul (by omega : 0 < a)).2
      have h1 : (k + 1) * a = a * k + a := by ring
      rw [h1]
      omega
    calc (s + a - 1) / a * a ≤ k * a := Nat.mul_le_mul_right a this
      _ = a * k := Nat.mul_comm _ _

/-- C20: for every object size s >= 1 (a std::size_t) and alignment a >= 1
that divides s, the recursion of BlockSize<s, a> ends within s / a nested
instantiations and yields roundUp(s, a); roundUp(s, a) is a multiple of a, at
least s, below every other such multiple, and equal to s. -/
theorem C20_block_size (s a fuel : Nat) (hs : 1 ≤ s) (ha : 1 ≤ a) (hdiv : a ∣ s)
    (h64 : s < 2 ^ 64) (hfuel : s / a ≤ fuel) :
    detail.BlockSize fuel s a = some (specRoundUp s a)
      ∧ (a ∣ specRoundUp s a ∧ s ≤ specRoundUp s a
          ∧ ∀ m, a ∣ m → s ≤ m → specRoundUp s a ≤ m)
      ∧ specRoundUp s a = s := by
  have hround : specRoundUp s a = s := by
    obtain ⟨_, h2, h3⟩ := specRoundUp_least s a ha
    exact Nat.le_antisymm (h3 s hdiv (Nat.le_refl _)) h2
  refine ⟨?_, specRoundUp_least s a ha, hround⟩
  rw [hround]
  obtain ⟨q, rfl⟩ := hdiv
  have hq : 1 ≤ q := by
    rcases Nat.eq_zero_or_pos q with h | h
    · subst h; simp at hs
    · exact h
  have hdivq : a * q / a = q := Nat.mul_div_cancel_left q (by omega)
  rw [hdivq] at hfuel
  have := detail.BlockSizeImpl_multiple a q ha h64 (q - 1) fuel 1 (by omega) (by omega)
  simpa [detail.BlockSize] using this

/-- Witness of C20: an object of size 24 with alignment 8 gets block size 24
within 3 nested instantiations. -/
theorem C20_block_size_witness :
    1 ≤ 24 ∧ 1 ≤ 8 ∧ 8 ∣ 24 ∧ detail.BlockSize 3 24 8 = some (specRoundUp 24 8)
      ∧ specRoundUp 24 8 = 24 :=
  have h := C20_block_size 24 8 3 (by decide) (by decide) (by decide) (by decide) (by decide)
  ⟨by decide, by decide, by decide, h.1, h.2.2⟩

/-! ## Growable allocator: frame of deallocate -/

/-- A pointer outside the bucket is rejected by the bitmask subsystem, which
keeps its state. -/
theorem BitAllocationSubsystem.deallocate_outside (s : BitAllocationSubsystem) (ptr : Int)
    (n : Nat) (h : ptr - s.first < 0 ∨ 64 ≤ ptr - s.first) :
    s.deallocate ptr n = (false, s) := by
  unfold BitAllocationSubsystem.deallocate
  simp only
  split
  · rfl
  · rw [if_pos (by omega)]

/-- The scan of deallocate over nodes that all reject the pointer changes
none of them. -/
theorem BlockAllocator.deallocateFrom_outside (ptr : Int) (n : Nat) :
    ∀ (more : List BitAllocationSubsystem),
      (∀ node ∈ more, ptr - node.first < 0 ∨ 64 ≤ ptr - node.first) →
        BlockAllocator.deallocateFrom ptr n more = more := by
  intro more
  induction more with
  | nil => intro _; rfl
  | cons cur more ih =>
    intro h
    unfold BlockAllocator.deallocateFrom
    rw [BitAllocationSubsystem.deallocate_outside cur ptr n (h cur (List.mem_cons_self _ _))]
    simp only
    rw [ih (fun node hn => h node (List.mem_cons_of_mem _ hn))]

/-- C12: deallocate(p, n) on a growable allocator with p outside the bucket
of every arena node (block index below 0 or at least 64 for every node)
leaves the allocator state as it was: every occupancy word, the length of the
chain and the order of its nodes. -/
theorem C12_deallocate_foreign_is_noop (a : BlockAllocator) (ptr : Int) (n : Nat)
    (h : ∀ node ∈ a.nodes, ptr - node.first < 0 ∨ 64 ≤ ptr - node.first) :
    a.deallocate ptr n = a := by
  unfold BlockAllocator.deallocate
  rw [BitAllocationSubsystem.deallocate_outside a.head ptr n (h a.head (List.mem_cons_self _ _))]
  simp only
  rw [BlockAllocator.deallocateFrom_outside ptr n a.rest
    (fun node hn => h node (List.mem_cons_of_mem _ hn))]

/-- Witness of C12: a chain of two nodes with buckets at 1000 and 2000 and
occupancy words 7 and 1 is unchanged by deallocate(1500, 3). -/
theorem C12_deallocate_foreign_is_noop_witness :
    BlockAllocator.deallocate
        { head := { freeBlockList := 7, first := 1000 },
          rest := [{ freeBlockList := 1, first := 2000 }] } 1500 3
      = { head := { freeBlockList := 7, first := 1000 },
          rest := [{ freeBlockList := 1, first := 2000 }] } :=
  C12_deallocate_foreign_is_noop _ 1500 3 (by decide)

/-! ## Free-list subsystem: ownership test and termination -/

namespace LinkedListAllocationSubsystem

/-- The ownership test fails for the null pointer and for a pointer whose
block index, a std::ptrdiff_t, lies outside the bucket. -/
theorem inRange_outside (s : LinkedListAllocationSubsystem) (ptr : Int)
    (hN : s.freeList.length ≤ 2 ^ 63)
    (hout : ptr = 0 ∨ (-2 ^ 63 ≤ ptr - s.first ∧ ptr - s.first < 0)
      ∨ ((s.freeList.length : Int) ≤ ptr - s.first ∧ ptr - s.first < 2 ^ 63)) :
    s.inRange ptr = false := by
  unfold inRange
  by_cases h0 : ptr = 0
  · simp [h0]
  · rw [if_neg h0]
    simp only [decide_eq_false_iff_not, not_and, not_lt]
    intro _
    rcases hout with h | h | h
    · exact absurd h h0
    · omega
    · omega

/-- C11: in every state of the free-list subsystem (capacity N at most
2 ^ 63) and for every n, deallocate(p, n) with p null, or with the block
index of p (a std::ptrdiff_t) below 0 or at least N, returns false and leaves
the whole state (head of the free chain and every slot) as it was, so that
every later call sees the state it would have seen without this call. -/
theorem C11_deallocate_rejects_outside (s : LinkedListAllocationSubsystem) (ptr : Int)
    (n fuel : Nat) (hN : s.kAllocatableObjectCount ≤ 2 ^ 63)
    (hout : ptr = 0 ∨ (-2 ^ 63 ≤ ptr - s.first ∧ ptr - s.first < 0)
      ∨ ((s.kAllocatableObjectCount : Int) ≤ ptr - s.first ∧ ptr - s.first < 2 ^ 63)) :
    deallocate fuel s ptr n = Outcome.ret (false, s) := by
  unfold deallocate
  rw [if_pos (inRange_outside s ptr hN hout)]

/-- Witness of C11: a fresh subsystem of capacity 8 with its bucket at 1000
rejects deallocate(1008, 3), the address one past its last block. -/
theorem C11_deallocate_rejects_outside_witness :
    deallocate 0 (new 8 1000) 1008 3 = Outcome.ret (false, new 8 1000) :=
  C11_deallocate_rejects_outside (new 8 1000) 1008 3 0 (by decide) (by decide)

/-- C14, the code at two failing inputs. On a fresh subsystem of capacity 8,
allocate(1) followed by deallocate of the returned block leaves slot 1 linked
to itself, and the run search of the following allocate(3) then never leaves
slot 1: it does not finish within any number of iterations. And after
allocate(8) has emptied the free chain, deallocate of that outstanding run
reads the link of the null head. -/
theorem C14_allocate_spins_and_deallocate_faults :
    runFrom 8 (new 8 1000) [Op.allocate 1, Op.deallocate 1000 1]
        = Outcome.ret ([some 1000, none],
            { freeList := [some 1, some 1, some 3, some 4, some 5, some 6, some 7, none],
              freeListTop := some 0, first := 1000 })
      ∧ (∀ fuel, allocate fuel
            { freeList := [some 1, some 1, some 3, some 4, some 5, some 6, some 7, none],
              freeListTop := some 0, first := 1000 } 3 = Outcome.fuelOut)
      ∧ runFrom 8 (new 8 1000) [Op.allocate 8]
        = Outcome.ret ([some 1000],
            { freeList := [some 1, some 2, some 3, some 4, some 5, some 6, some 7, none],
              freeListTop := none, first := 1000 })
      ∧ (∀ fuel, deallocate fuel
            { freeList := [some 1, some 2, some 3, some 4, some 5, some 6, some 7, none],
              freeListTop := none, first := 1000 } 1000 8 = Outcome.fault) := by
  have hspin : ∀ fuel, allocateLoop [some 1, some 1, some 3, some 4, some 5, some 6, some 7, none]
      3 fuel 1 1 1 1 = Outcome.fuelOut := by
    intro fuel
    induction fuel with
    | zero => rfl
    | succ f ih =>
      unfold allocateLoop
      simpa using ih
  refine ⟨by decide, ?_, by decide, fun _ => rfl⟩
  intro fuel
  unfold allocate
  simp only
  cases fuel with
  | zero => rfl
  | succ f =>
    cases f with
    | zero => rfl
    | succ g =>
      have := hspin g
      unfold allocateLoop
      simp
      unfold allocateLoop
      simp [this]

/-- C15, the code at the failing input: capacity 8, free chain 0, 2, 3, 4, 5,
6, 7 (strictly increasing), block 1 allocated with its slot still linked to
slot 2. deallocate(block 1, 1) returns true, but its scan runs to the end of
the chain, links slot 7 to slot 1 and, one step past slot 1, sets the link of
slot 2 to null: the free chain from the head is then 0, 2, and it holds
neither block 1 nor the old free blocks 3 to 7. -/
theorem C15_reinsertion_loses_blocks :
    StrictlyIncreasingChain
        { freeList := [some 2, some 2, some 3, some 4, some 5, some 6, some 7, none],
          freeListTop := some 0, first := 1000 }
      ∧ chainWalk [some 2, some 2, some 3, some 4, some 5, some 6, some 7, none] 8 (some 0)
        = some [0, 2, 3, 4, 5, 6, 7]
      ∧ deallocate 8
          { freeList := [some 2, some 2, some 3, some 4, some 5, some 6, some 7, none],
            freeListTop := some 0, first := 1000 } 1001 1
        = Outcome.ret (true,
            { freeList := [some 2, some 2, none, some 4, some 5, some 6, some 7, some 1],
              freeListTop := some 0, first := 1000 })
      ∧ chainWalk [some 2, some 2, none, some 4, some 5, some 6, some 7, some 1] 8 (some 0)
        = some [0, 2] := by
  refine ⟨⟨8, [0, 2, 3, 4, 5, 6, 7], by decide, by decide⟩, by decide, by decide, by decide⟩

end LinkedListAllocationSubsystem

/-! ## Bitmask subsystem: masks and deallocate -/

/-- For N from 1 on, NBitmask<N> is the word with exactly the N lowest bits set. -/
theorem detail.NBitmask_eq : ∀ n, 1 ≤ n → detail.NBitmask n = 2 ^ n - 1 := by
  intro n
  induction n with
  | zero => intro h; omega
  | succ m ih =>
    intro _
    rcases Nat.eq_zero_or_pos m with h0 | hpos
    · subst h0; decide
    · unfold detail.NBitmask
      rw [ih hpos]
      apply Nat.eq_of_testBit_eq
      intro i
      rw [Nat.testBit_or, Nat.testBit_shiftLeft, Nat.testBit_two_pow_sub_one,
        Nat.testBit_two_pow_sub_one]
      by_cases h1 : i < m
      · simp [h1, Nat.lt_succ_of_lt h1]
      · by_cases h2 : i = m
        · subst h2; simp
        · have h3 : ¬ i < m + 1 := by omega
          have h4 : i - m ≠ 0 := by omega
          have h5 : Nat.testBit 1 (i - m) = false := by
            rw [Bool.eq_false_iff]
            intro h
            exact h4 (Nat.testBit_one_eq_true_iff_self_eq_zero.mp h)
          simp [h1, h3, h5]

/-- Bit i of NBit(n) is set exactly when i < n, for every n up to 64 (NBit(0) is 0). -/
theorem testBit_NBit (n i : Nat) (hn : n ≤ 64) : (NBit n).testBit i = decide (i < n) := by
  unfold NBit
  by_cases h : 1 ≤ n
  · rw [if_pos ⟨h, hn⟩, detail.NBitmask_eq n h, Nat.testBit_two_pow_sub_one]
  · have h0 : n = 0 := by omega
    subst h0
    simp

/-- For n from 1 to 64, NBit(n) is 2 ^ n - 1. -/
theorem NBit_eq (n : Nat) (h1 : 1 ≤ n) (hn : n ≤ 64) : NBit n = 2 ^ n - 1 := by
  unfold NBit
  rw [if_pos ⟨h1, hn⟩, detail.NBitmask_eq n h1]

/-- The bits of a 64 bit word after the clearing step of deallocate at index i:
bits i to i + n - 1 are clear and every other bit is as before. -/
theorem testBit_clear (w n i j : Nat) (hn : n ≤ 64) (hw : w < 2 ^ 64) :
    (w &&& (2 ^ 64 - 1 - (NBit n <<< i) % 2 ^ 64)).testBit j
      = (w.testBit j && !decide (i ≤ j ∧ j < i + n)) := by
  have hlt : (NBit n <<< i) % 2 ^ 64 < 2 ^ 64 := Nat.mod_lt _ (by decide)
  have hsub : 2 ^ 64 - 1 - (NBit n <<< i) % 2 ^ 64 = 2 ^ 64 - ((NBit n <<< i) % 2 ^ 64 + 1) := by
    omega
  rw [Nat.testBit_and, hsub, Nat.testBit_two_pow_sub_succ hlt, Nat.testBit_mod_two_pow,
    Nat.testBit_shiftLeft, testBit_NBit _ _ hn]
  by_cases hj : j < 64
  · by_cases h1 : i ≤ j
    · by_cases h2 : j < i + n
      · have : j - i < n := by omega
        simp [hj, h1, h2, this]
      · have : ¬ j - i < n := by omega
        simp [hj, h1, h2, this]
    · simp [hj, h1]
  · have : w.testBit j = false :=
      Nat.testBit_lt_two_pow (Nat.lt_of_lt_of_le hw (Nat.pow_le_pow_right (by decide) (by omega)))
    simp [this]

/-- C17: for every 64 bit occupancy word w, every n from 1 to 64 and every
pointer with block index i relative to the bucket, deallocate returns true
exactly when 0 <= i < 64; when it returns true the new word is w AND NOT
(((2 ^ n - 1) * 2 ^ i) mod 2 ^ 64), whose bit j is clear for i <= j < i + n
and equal to bit j of w otherwise, whatever those bits were in w; when it
returns false the state is unchanged. -/
theorem C17_deallocate_clears_run (s : BitAllocationSubsystem) (ptr : Int) (n : Nat) (hn1 : 1 ≤ n) (hn : n ≤ 64)
    (hw : s.freeBlockList < 2 ^ 64) :
    ((s.deallocate ptr n).1 = true ↔ (0 ≤ ptr - s.first ∧ ptr - s.first < 64))
      ∧ ((s.deallocate ptr n).1 = true →
          (s.deallocate ptr n).2
              = { s with freeBlockList := s.freeBlockList &&&
                    (2 ^ 64 - 1 - ((2 ^ n - 1) * 2 ^ (ptr - s.first).toNat) % 2 ^ 64) }
            ∧ ∀ j, ((s.deallocate ptr n).2.freeBlockList).testBit j
                = (s.freeBlockList.testBit j
                    && !decide ((ptr - s.first).toNat ≤ j ∧ j < (ptr - s.first).toNat + n)))
      ∧ ((s.deallocate ptr n).1 = false → (s.deallocate ptr n).2 = s) := by
  unfold BitAllocationSubsystem.deallocate
  simp only
  by_cases h1 : ptr - s.first < 0
  · rw [if_pos h1]
    refine ⟨?_, ?_, fun _ => rfl⟩
    · simp; omega
    · intro h; cases h
  · rw [if_neg h1]
    by_cases h2 : ptr - s.first ≥ 64
    · rw [if_pos h2]
      refine ⟨?_, ?_, fun _ => rfl⟩
      · simp; omega
      · intro h; cases h
    · rw [if_neg h2]
      refine ⟨?_, ?_, ?_⟩
      · simp; omega
      · intro _
        refine ⟨?_, ?_⟩
        · rw [NBit_eq n hn1 hn, Nat.shiftLeft_eq]
        · intro j
          exact testBit_clear _ n _ j hn hw
      · intro h; cases h

/-- Witness of C17: deallocate(block 2, 3) on the word 255 leaves 227 (bits 2,
3, 4 cleared). -/
theorem C17_deallocate_clears_run_witness :
    (BitAllocationSubsystem.deallocate { freeBlockList := 255, first := 1000 } 1002 3).1 = true
      ∧ (BitAllocationSubsystem.deallocate { freeBlockList := 255, first := 1000 } 1002 3).2
        = { freeBlockList := 227, first := 1000 } :=
  have h := C17_deallocate_clears_run { freeBlockList := 255, first := 1000 } 1002 3
    (by decide) (by decide) (by decide)
  have ht : (BitAllocationSubsystem.deallocate
      { freeBlockList := 255, first := 1000 } 1002 3).1 = true := h.1.2 (by decide)
  ⟨ht, (h.2.1 ht).1.trans (by decide)⟩

/-! ## Growable allocator: ownership resolution -/

/-- A pointer to block i of the bucket, i < 64, is accepted and the clearing
step is applied at index i. -/
theorem BitAllocationSubsystem.deallocate_inside (s : BitAllocationSubsystem) (i n : Nat)
    (hi : i < 64) :
    s.deallocate (s.first + (i : Int)) n
      = (true, { s with freeBlockList :=
          s.freeBlockList &&& (2 ^ 64 - 1 - (NBit n <<< i) % 2 ^ 64) }) := by
  unfold BitAllocationSubsystem.deallocate
  have h0 : s.first + (i : Int) - s.first = (i : Int) := by omega
  simp only [h0]
  rw [if_neg (by omega), if_neg (by omega)]
  simp

/-- The scan of deallocate over nodes with pairwise disjoint buckets, for a
pointer into the bucket of the k-th of them: the nodes before it reject the
pointer and are unchanged, the k-th clears the run, the scan stops. -/
theorem BlockAllocator.deallocateFrom_owner (i n : Nat) (hi : i < 64) :
    ∀ (l : List BitAllocationSubsystem) (k : Nat) (node : BitAllocationSubsystem),
      l[k]? = some node →
      l.Pairwise (fun x y => x.first + 64 ≤ y.first ∨ y.first + 64 ≤ x.first) →
        BlockAllocator.deallocateFrom (node.first + (i : Int)) n l
          = l.set k { node with freeBlockList :=
              node.freeBlockList &&& (2 ^ 64 - 1 - (NBit n <<< i) % 2 ^ 64) } := by
  intro l
  induction l with
  | nil => intro k node h; simp at h
  | cons cur more ih =>
    intro k node hk hp
    rw [List.pairwise_cons] at hp
    cases k with
    | zero =>
      simp only [List.getElem?_cons_zero, Option.some.injEq] at hk
      subst hk
      unfold BlockAllocator.deallocateFrom
      rw [BitAllocationSubsystem.deallocate_inside cur i n hi]
      simp
    | succ k =>
      simp only [List.getElem?_cons_succ] at hk
      have hmem : node ∈ more := List.getElem?_mem hk
      have hd := hp.1 node hmem
      have hout : cur.deallocate (node.first + (i : Int)) n = (false, cur) := by
        unfold BitAllocationSubsystem.deallocate
        simp only
        split
        · rfl
        · rw [if_pos (by omega)]
      unfold BlockAllocator.deallocateFrom
      rw [hout]
      simp only [List.set_cons_succ]
      rw [ih k node hk hp.2]

/-- BlockAllocator::deallocate is the scan over the whole chain. -/
theorem BlockAllocator.deallocate_nodes (a : BlockAllocator) (ptr : Int) (n : Nat) :
    (a.deallocate ptr n).nodes = BlockAllocator.deallocateFrom ptr n a.nodes := by
  unfold BlockAllocator.deallocate BlockAllocator.nodes
  conv => rhs; unfold BlockAllocator.deallocateFrom
  rcases h : a.head.deallocate ptr n with ⟨b, h1⟩
  cases b <;> simp

/-- C19, amended: in a growable allocator whose nodes have pairwise disjoint buckets,
deallocate(p, n), n <= 64, with p the address of block i of the k-th node
replaces the occupancy word of the k-th node by one whose bit j is clear for
i <= j < i + n and as before otherwise; every other node, the length of the
chain and the order of its nodes are unchanged. -/
theorem C19_deallocate_resolves_owner (a : BlockAllocator) (k i n : Nat)
    (node : BitAllocationSubsystem) (hk : a.nodes[k]? = some node) (hi : i < 64) (hn : n ≤ 64)
    (hw : node.freeBlockList < 2 ^ 64)
    (hdisj : a.nodes.Pairwise (fun x y => x.first + 64 ≤ y.first ∨ y.first + 64 ≤ x.first)) :
    ∃ w1, (a.deallocate (node.first + (i : Int)) n).nodes
          = a.nodes.set k { freeBlockList := w1, first := node.first }
      ∧ (∀ j, w1.testBit j = (node.freeBlockList.testBit j && !decide (i ≤ j ∧ j < i + n)))
      ∧ (a.deallocate (node.first + (i : Int)) n).nodes.length = a.nodes.length
      ∧ ∀ m, m ≠ k →
          (a.deallocate (node.first + (i : Int)) n).nodes[m]? = a.nodes[m]? := by
  have hnodes : (a.deallocate (node.first + (i : Int)) n).nodes
      = a.nodes.set k { freeBlockList :=
          node.freeBlockList &&& (2 ^ 64 - 1 - (NBit n <<< i) % 2 ^ 64), first := node.first } := by
    rw [BlockAllocator.deallocate_nodes]
    exact BlockAllocator.deallocateFrom_owner i n hi a.nodes k node hk hdisj
  refine ⟨_, hnodes, fun j => testBit_clear _ n i j hn hw, ?_, ?_⟩
  · rw [hnodes, List.length_set]
  · intro m hm
    rw [hnodes, List.getElem?_set_ne (Ne.symm hm)]

/-- Witness of C19: after the chain has grown to two nodes (buckets at 1000
and 2000), freeing block 10 of the first node clears bit 10 of the first
node and leaves the second node as it was. -/
theorem C19_deallocate_resolves_owner_witness :
    ∃ w1, (BlockAllocator.deallocate
          { head := { freeBlockList := 2 ^ 63 - 1, first := 1000 },
            rest := [{ freeBlockList := 1, first := 2000 }] } (1000 + ((10 : Nat) : Int)) 1).nodes
          = [{ freeBlockList := w1, first := 1000 }, { freeBlockList := 1, first := 2000 }]
      ∧ w1.testBit 10 = false :=
  have h := C19_deallocate_resolves_owner
    { head := { freeBlockList := 2 ^ 63 - 1, first := 1000 },
      rest := [{ freeBlockList := 1, first := 2000 }] } 0 10 1
    { freeBlockList := 2 ^ 63 - 1, first := 1000 } rfl (by decide) (by decide) (by decide)
    (by decide)
  h.elim fun w1 hw1 => ⟨w1, hw1.1, (hw1.2.1 10).trans (by decide)⟩

/-- C19, counterexample to the claim as stated: in a chain of two nodes with
buckets at 1000 and 2000 and occupancy words 7 and 255, deallocate(2000, 65),
with 2000 the address of block 0 of the second node, leaves both words as
they were: bit 0 of the second word is still set, although block 0 lies in
the run of 65 blocks from block 0. For a length above 64 the default case of
NBit yields the mask 0. -/
theorem C19_oversized_deallocate_clears_nothing :
    (BlockAllocator.deallocate
        { head := { freeBlockList := 7, first := 1000 },
          rest := [{ freeBlockList := 255, first := 2000 }] } 2000 65).nodes
        = [{ freeBlockList := 7, first := 1000 }, { freeBlockList := 255, first := 2000 }]
      ∧ NBit 65 = 0
      ∧ Nat.testBit 255 0 = true
      ∧ (0 ≤ 0 ∧ 0 < 0 + 65) := by
  decide

/-! ## Bitmask subsystem: search loop and occupancy invariant -/

namespace BitAllocationSubsystem

/-- NBit(n) has no bit at position n or above. -/
theorem NBit_lt (n : Nat) (hn : n ≤ 64) : NBit n < 2 ^ n := by
  apply Nat.lt_pow_two_of_testBit
  intro i hi
  rw [testBit_NBit n i hn]
  simp
  omega

/-- The test of the search loop: the mask shifted to position j meets no set bit
of w exactly when blocks j to j + n - 1 are all free. -/
theorem and_mask_eq_zero_iff (w n j : Nat) (hn : n ≤ 64) :
    w &&& (NBit n <<< j) = 0 ↔ runFree w n j := by
  constructor
  · intro h k hk
    have hb : (w &&& (NBit n <<< j)).testBit (j + k) = false := by rw [h]; simp
    rw [Nat.testBit_and, Nat.testBit_shiftLeft, testBit_NBit n _ hn] at hb
    have h1 : j + k - j = k := by omega
    rw [h1] at hb
    simpa [hk] using hb
  · intro h
    apply Nat.eq_of_testBit_eq
    intro i
    rw [Nat.testBit_and, Nat.testBit_shiftLeft, testBit_NBit n _ hn, Nat.zero_testBit]
    by_cases h1 : i ≥ j
    · by_cases h2 : i - j < n
      · have := h (i - j) h2
        have h3 : j + (i - j) = i := by omega
        rw [h3] at this
        simp [this]
      · simp [h2]
    · simp [h1]

/-- The search loop from position i with k iterations left, all positions inside
the word: it fails when no position from i to i + k - 1 is usable, otherwise
it stops at the least usable one and sets its n bits. -/
theorem allocateLoop_spec (w n : Nat) (hn : n ≤ 64) :
    ∀ (k i : Nat), i + k + n ≤ 64 →
      (allocateLoop w k i (NBit n <<< i) = none
          ∧ ∀ j, i ≤ j → j < i + k → ¬ runFree w n j)
        ∨ ∃ j, i ≤ j ∧ j < i + k ∧ runFree w n j
            ∧ (∀ j1, i ≤ j1 → j1 < j → ¬ runFree w n j1)
            ∧ allocateLoop w k i (NBit n <<< i) = some (j, w ||| (NBit n <<< j)) := by
  intro k
  induction k with
  | zero =>
    intro i _
    left
    exact ⟨rfl, fun j h1 h2 => by omega⟩
  | succ k ih =>
    intro i hb
    unfold allocateLoop
    by_cases hfree : w &&& (NBit n <<< i) = 0
    · right
      refine ⟨i, Nat.le_refl _, by omega, (and_mask_eq_zero_iff w n i hn).1 hfree,
        fun j1 h1 h2 => by omega, ?_⟩
      rw [if_pos hfree]
    · rw [if_neg hfree]
      have hshift : (NBit n <<< i <<< 1) % 2 ^ 64 = NBit n <<< (i + 1) := by
        rw [← Nat.shiftLeft_add]
        apply Nat.mod_eq_of_lt
        rw [Nat.shiftLeft_eq]
        calc NBit n * 2 ^ (i + 1) < 2 ^ n * 2 ^ (i + 1) :=
              Nat.mul_lt_mul_of_pos_right (NBit_lt n hn) (Nat.two_pow_pos _)
          _ = 2 ^ (n + (i + 1)) := (Nat.pow_add 2 n (i + 1)).symm
          _ ≤ 2 ^ 64 := Nat.pow_le_pow_right (by decide) (by omega)
      rw [hshift]
      have hnot : ¬ runFree w n i := fun h => hfree ((and_mask_eq_zero_iff w n i hn).2 h)
      rcases ih (i + 1) (by omega) with ⟨h1, h2⟩ | ⟨j, h1, h2, h3, h4, h5⟩
      · left
        refine ⟨h1, fun j hj1 hj2 => ?_⟩
        rcases Nat.eq_or_lt_of_le hj1 with rfl | hlt
        · exact hnot
        · exact h2 j hlt (by omega)
      · right
        refine ⟨j, by omega, by omega, h3, fun j1 hj1 hj2 => ?_, h5⟩
        rcases Nat.eq_or_lt_of_le hj1 with rfl | hlt
        · exact hnot
        · exact h4 j1 hlt hj2

/-- Allocate of the bitmask subsystem for n from 1 to 64: the positions tried are
those with j + n <= 63; the call fails, state unchanged, when none of them is
usable, otherwise it returns the block at the least usable one and sets its n
bits. -/
theorem allocate_spec (s : BitAllocationSubsystem) (n : Nat) (hn1 : 1 ≤ n) (hn : n ≤ 64) :
    (s.allocate n = (none, s) ∧ ∀ j, j + n ≤ 63 → ¬ runFree s.freeBlockList n j)
      ∨ ∃ j, j + n ≤ 63 ∧ runFree s.freeBlockList n j
          ∧ (∀ j1, j1 < j → ¬ runFree s.freeBlockList n j1)
          ∧ s.allocate n = (some (s.first + (j : Int)),
              { s with freeBlockList := s.freeBlockList ||| (NBit n <<< j) }) := by
  have hbound : loopBound n = 64 - n := by
    unfold loopBound kAllocatableObjectCount
    omega
  unfold allocate
  by_cases hsat : s.freeBlockList = 0xffffffffffffffff
  · left
    rw [if_pos hsat]
    refine ⟨rfl, fun j hj hfree => ?_⟩
    have h0 := hfree 0 (by omega)
    rw [hsat] at h0
    have h1 : (0xffffffffffffffff : Nat) = 2 ^ 64 - 1 := by decide
    rw [h1, Nat.testBit_two_pow_sub_one] at h0
    simp at h0
    omega
  · rw [if_neg hsat, hbound]
    have hspec := allocateLoop_spec s.freeBlockList n hn (64 - n) 0 (by omega)
    rw [Nat.shiftLeft_zero] at hspec
    rcases hspec with ⟨h1, h2⟩ | ⟨j, _, h2, h3, h4, h5⟩
    · left
      rw [h1]
      exact ⟨rfl, fun j hj => h2 j (Nat.zero_le _) (by omega)⟩
    · right
      refine ⟨j, by omega, h3, fun j1 hj1 => h4 j1 (Nat.zero_le _) hj1, ?_⟩
      rw [h5]

/-- A fresh subsystem with no outstanding run satisfies the invariant. -/
theorem trackedInv_new (first : Int) : TrackedInv first (new first, []) := by
  refine ⟨rfl, fun b => ?_, List.Pairwise.nil, fun r hr => ?_⟩
  · simp [new]
  · simp at hr

/-- Under the invariant the occupancy word is a 64 bit word. -/
theorem trackedInv_word_lt (first : Int) (t : BitAllocationSubsystem × List (Int × Nat))
    (h : TrackedInv first t) : t.1.freeBlockList < 2 ^ 64 := by
  apply Nat.lt_pow_two_of_testBit
  intro b hb
  rw [Bool.eq_false_iff]
  intro hset
  obtain ⟨r, hr, h1, h2⟩ := (h.2.1 b).1 hset
  obtain ⟨i, hi, _, h3⟩ := h.2.2.2 r hr
  omega

/-- The invariant is kept when a usable run is allocated and recorded. -/
theorem trackedInv_allocate (first : Int) (t : BitAllocationSubsystem × List (Int × Nat))
    (h : TrackedInv first t) (n j : Nat) (hn : n ≤ 64) (hn1 : 1 ≤ n) (hj : j + n ≤ 63)
    (hfree : runFree t.1.freeBlockList n j) :
    TrackedInv first
      ({ t.1 with freeBlockList := t.1.freeBlockList ||| (NBit n <<< j) },
        (t.1.first + (j : Int), n) :: t.2) := by
  obtain ⟨hfirst, hbits, hpair, hbound⟩ := h
  have hcover : ∀ b : Nat, ((NBit n <<< j).testBit b = true) ↔ (j ≤ b ∧ b < j + n) := by
    intro b
    rw [Nat.testBit_shiftLeft, testBit_NBit n _ hn]
    simp
    omega
  refine ⟨hfirst, fun b => ?_, ?_, ?_⟩
  · simp only [Nat.testBit_or, Bool.or_eq_true, List.mem_cons, hcover, hfirst]
    constructor
    · rintro (hw | hc)
      · obtain ⟨r, hr, h1⟩ := (hbits b).1 hw
        exact ⟨r, Or.inr hr, h1⟩
      · exact ⟨(first + (j : Int), n), Or.inl rfl, by simp; omega, by simp; omega⟩
    · rintro ⟨r, hr | hr, h1, h2⟩
      · subst hr
        right
        simp at h1 h2
        omega
      · left
        exact (hbits b).2 ⟨r, hr, h1, h2⟩
  · rw [List.pairwise_cons]
    refine ⟨fun q hq hov => ?_, hpair⟩
    obtain ⟨i, hi, hm, _⟩ := hbound q hq
    unfold rangesOverlap at hov
    simp only [hfirst] at hov
    obtain ⟨h1, h2⟩ := hov
    -- the block max i j lies in both runs
    have hb : ∃ b : Nat, (i ≤ b ∧ b < i + q.2) ∧ (j ≤ b ∧ b < j + n) := by
      refine ⟨max i j, ?_, ?_⟩ <;> omega
    obtain ⟨b, hb1, hb2⟩ := hb
    have hset : t.1.freeBlockList.testBit b = true :=
      (hbits b).2 ⟨q, hq, by omega, by omega⟩
    have hclear := hfree (b - j) (by omega)
    have : j + (b - j) = b := by omega
    rw [this, hset] at hclear
    cases hclear
  · intro r hr
    rcases List.mem_cons.mp hr with rfl | hr
    · exact ⟨j, by simp [hfirst], hn1, hj⟩
    · exact hbound r hr

/-- The invariant is kept when an outstanding run is released. -/
theorem trackedInv_deallocate (first : Int) (t : BitAllocationSubsystem × List (Int × Nat))
    (h : TrackedInv first t) (ptr : Int) (n : Nat) (hmem : (ptr, n) ∈ t.2) :
    TrackedInv first ((t.1.deallocate ptr n).2, t.2.erase (ptr, n)) := by
  have hw := trackedInv_word_lt first t h
  obtain ⟨hfirst, hbits, hpair, hbound⟩ := h
  obtain ⟨i, hi, hn1, hin⟩ := hbound (ptr, n) hmem
  simp only at hi hn1 hin
  have hptr : ptr = t.1.first + (i : Int) := by rw [hfirst]; exact hi
  have hsym : Symmetric (fun r q : Int × Nat => ¬ rangesOverlap r.1 r.2 q.1 q.2) := by
    intro r q hrq hov
    exact hrq ⟨hov.2, hov.1⟩
  have hnodup : t.2.Nodup := by
    refine hpair.imp_of_mem ?_
    intro r q hr _ hrq heq
    subst heq
    obtain ⟨_, _, hm, _⟩ := hbound r hr
    apply hrq
    unfold rangesOverlap
    omega
  rw [hptr, deallocate_inside t.1 i n (by omega)]
  refine ⟨hfirst, fun b => ?_, hpair.sublist (List.erase_sublist _ _), fun r hr =>
    hbound r (List.mem_of_mem_erase hr)⟩
  simp only
  rw [testBit_clear _ n i b (by omega) hw]
  simp only [Bool.and_eq_true, Bool.not_eq_true', decide_eq_false_iff_not]
  rw [← hptr]
  constructor
  · rintro ⟨hset, hnot⟩
    obtain ⟨r, hr, h1, h2⟩ := (hbits b).1 hset
    refine ⟨r, ?_, h1, h2⟩
    rw [hnodup.mem_erase_iff]
    refine ⟨?_, hr⟩
    intro heq
    subst heq
    simp only at h1 h2
    omega
  · rintro ⟨r, hr, h1, h2⟩
    rw [hnodup.mem_erase_iff] at hr
    refine ⟨(hbits b).2 ⟨r, hr.2, h1, h2⟩, ?_⟩
    intro hcov
    have hdis := hpair.forall hsym hr.2 hmem hr.1
    apply hdis
    unfold rangesOverlap
    simp only
    omega

/-- Every tracked call keeps the invariant. -/
theorem trackedInv_step (first : Int) (t t1 : BitAllocationSubsystem × List (Int × Nat))
    (op : Op) (h : TrackedInv first t) (hstep : stepTracked t op = some t1) :
    TrackedInv first t1 := by
  cases op with
  | allocate n =>
    simp only [stepTracked] at hstep
    by_cases hn : 1 ≤ n ∧ n ≤ 64
    · rw [if_pos hn] at hstep
      rcases allocate_spec t.1 n hn.1 hn.2 with ⟨h1, _⟩ | ⟨j, hj, hfree, _, h1⟩
      · rw [h1] at hstep
        simp only [Option.some.injEq] at hstep
        subst hstep
        exact h
      · rw [h1] at hstep
        simp only [Option.some.injEq] at hstep
        subst hstep
        exact trackedInv_allocate first t h n j hn.2 hn.1 hj hfree
    · rw [if_neg hn] at hstep
      cases hstep
  | deallocate ptr n =>
    simp only [stepTracked] at hstep
    by_cases hmem : (ptr, n) ∈ t.2
    · rw [if_pos hmem] at hstep
      simp only [Option.some.injEq] at hstep
      subst hstep
      exact trackedInv_deallocate first t h ptr n hmem
    · rw [if_neg hmem] at hstep
      cases hstep

/-- Every tracked sequence of calls keeps the invariant. -/
theorem trackedInv_run (first : Int) :
    ∀ (ops : List Op) (t t1 : BitAllocationSubsystem × List (Int × Nat)),
      TrackedInv first t → runTracked t ops = some t1 → TrackedInv first t1 := by
  intro ops
  induction ops with
  | nil =>
    intro t t1 h hrun
    simp only [runTracked, Option.some.injEq] at hrun
    subst hrun
    exact h
  | cons op ops ih =>
    intro t t1 h hrun
    unfold runTracked at hrun
    cases hstep : stepTracked t op with
    | none => rw [hstep] at hrun; cases hrun
    | some t2 =>
      rw [hstep] at hrun
      exact ih t2 t1 (trackedInv_step first t t2 op h hstep) hrun

/-- C18: along every sequence, from a fresh subsystem, of allocate(n) calls with
n from 1 to 64 and deallocate(p, n) calls that each release a currently
outstanding run with its original n, bit b of the occupancy word is set
exactly when block b lies in some outstanding run, and the outstanding runs
are pairwise disjoint. -/
theorem C18_occupancy_invariant (first : Int) (ops : List Op) (s : BitAllocationSubsystem)
    (out : List (Int × Nat)) (hrun : runTracked (new first, []) ops = some (s, out)) :
    (∀ b : Nat, s.freeBlockList.testBit b = true
        ↔ ∃ r ∈ out, r.1 ≤ first + (b : Int) ∧ first + (b : Int) < r.1 + (r.2 : Int))
      ∧ out.Pairwise (fun r q => ¬ rangesOverlap r.1 r.2 q.1 q.2) :=
  have h := trackedInv_run first ops _ _ (trackedInv_new first) hrun
  ⟨h.2.1, h.2.2.1⟩

/-- Witness of C18: after allocate(3), allocate(2), release of the first run and
allocate(1), the outstanding runs are block 0 and blocks 3 to 4 and the word
is 25 (bits 0, 3, 4). -/
theorem C18_occupancy_invariant_witness :
    runTracked (new 1000, [])
        [Op.allocate 3, Op.allocate 2, Op.deallocate 1000 3, Op.allocate 1]
        = some ({ freeBlockList := 25, first := 1000 }, [(1000, 1), (1003, 2)])
      ∧ (∀ b : Nat, Nat.testBit 25 b = true
          ↔ ∃ r ∈ [((1000 : Int), (1 : Nat)), (1003, 2)],
              r.1 ≤ 1000 + (b : Int) ∧ 1000 + (b : Int) < r.1 + (r.2 : Int))
      ∧ [((1000 : Int), (1 : Nat)), (1003, 2)].Pairwise (fun r q => ¬ rangesOverlap r.1 r.2 q.1 q.2) :=
  have hrun : runTracked (new 1000, [])
      [Op.allocate 3, Op.allocate 2, Op.deallocate 1000 3, Op.allocate 1]
      = some ({ freeBlockList := 25, first := 1000 }, [(1000, 1), (1003, 2)]) := by decide
  ⟨hrun, C18_occupancy_invariant 1000 _ _ _ hrun⟩

/-- C13: in every state reached from a fresh bitmask subsystem by allocate(n)
calls with n from 1 to 64 and deallocate calls of outstanding runs, after
deallocate(p, n) of an outstanding run the next allocate(n) succeeds: it
returns the block at the least position j whose n blocks are all free, which
is not above p, and it returns p itself when no run of n free blocks starts
below p. -/
theorem C13_free_then_allocate (first : Int) (ops : List Op) (s : BitAllocationSubsystem)
    (out : List (Int × Nat)) (p : Int) (n : Nat)
    (hrun : runTracked (new first, []) ops = some (s, out)) (hmem : (p, n) ∈ out) :
    ∃ j : Nat,
      (s.deallocate p n).2.allocate n
          = (some (first + (j : Int)),
              { (s.deallocate p n).2 with
                freeBlockList := (s.deallocate p n).2.freeBlockList ||| (NBit n <<< j) })
        ∧ runFree (s.deallocate p n).2.freeBlockList n j
        ∧ (∀ j1, j1 < j → ¬ runFree (s.deallocate p n).2.freeBlockList n j1)
        ∧ first + (j : Int) ≤ p
        ∧ ((∀ j1 : Nat, first + (j1 : Int) < p →
              ¬ runFree (s.deallocate p n).2.freeBlockList n j1) → first + (j : Int) = p) := by
  have hinv := trackedInv_run first ops _ _ (trackedInv_new first) hrun
  have hw := trackedInv_word_lt first _ hinv
  have hinv1 := trackedInv_deallocate first _ hinv p n hmem
  obtain ⟨i, hi, hn1, hin⟩ := hinv.2.2.2 (p, n) hmem
  simp only at hi hn1 hin hw hinv1
  have hfirst : s.first = first := hinv.1
  have hfirst1 : (s.deallocate p n).2.first = first := hinv1.1
  have hfreei : runFree (s.deallocate p n).2.freeBlockList n i := by
    intro k hk
    have hptr : p = s.first + (i : Int) := by rw [hfirst]; exact hi
    rw [hptr, deallocate_inside s i n (by omega)]
    simp only
    rw [testBit_clear _ n i _ (by omega) hw]
    have : i ≤ i + k ∧ i + k < i + n := by omega
    simp [this]
  rcases allocate_spec (s.deallocate p n).2 n hn1 (by omega) with ⟨_, h2⟩ | ⟨j, _, h2, h3, h4⟩
  · exact absurd hfreei (h2 i (by omega))
  · have hji : j ≤ i := by
      by_contra hlt
      exact h3 i (by omega) hfreei
    refine ⟨j, ?_, h2, h3, by omega, fun hno => ?_⟩
    · rw [h4]
      simp only [hfirst1]
    · rcases Nat.eq_or_lt_of_le hji with heq | hlt
      · rw [heq]; exact hi.symm
      · exact absurd h2 (hno j (by omega))

/-- Witness of C13: after 63 calls of allocate(1) (every block the subsystem can
issue), release of block 10 followed by allocate(1) returns block 10. -/
theorem C13_free_then_allocate_witness :
    runTracked (new 1000, []) (List.replicate 63 (Op.allocate 1))
        = some ({ freeBlockList := 2 ^ 63 - 1, first := 1000 },
            (List.range 63).reverse.map (fun i => (1000 + (i : Int), 1)))
      ∧ ((BitAllocationSubsystem.deallocate
            { freeBlockList := 2 ^ 63 - 1, first := 1000 } 1010 1).2.allocate 1).1 = some 1010
      ∧ ∃ j : Nat, 1000 + (j : Int) = 1010
          ∧ ((BitAllocationSubsystem.deallocate
                { freeBlockList := 2 ^ 63 - 1, first := 1000 } 1010 1).2.allocate 1).1
              = some (1000 + (j : Int)) :=
  have hrun : runTracked (new 1000, []) (List.replicate 63 (Op.allocate 1))
      = some ({ freeBlockList := 2 ^ 63 - 1, first := 1000 },
          (List.range 63).reverse.map (fun i => (1000 + (i : Int), 1))) := by decide
  have h := C13_free_then_allocate 1000 _ _ _ 1010 1 hrun (by decide)
  ⟨hrun, by decide, h.elim fun j hj =>
    ⟨j, hj.2.2.2.2 (fun j1 hj1 hfree => by
        have h0 := hfree 0 (by decide)
        have hlt : j1 < 10 := by omega
        interval_cases j1 <;> revert h0 <;> decide), by rw [hj.1]⟩⟩

end BitAllocationSubsystem

/-! ## Free-list subsystem: first fit on a well formed chain -/

namespace LinkedListAllocationSubsystem

/-- A walk that visits no slot ends where it starts. -/
theorem chainSeg_nil (fl : List (Option Nat)) (p q : Option Nat) :
    ChainSeg fl p [] q ↔ p = q := Iff.rfl

/-- A walk that visits slot i first starts at slot i and continues from its link. -/
theorem chainSeg_cons (fl : List (Option Nat)) (p q : Option Nat) (i : Nat) (t : List Nat) :
    ChainSeg fl p (i :: t) q ↔ p = some i ∧ ∃ nx, fl[i]? = some nx ∧ ChainSeg fl nx t q :=
  Iff.rfl

/-- The slots listed by a chain walk that reaches the null end form a walk to
null. -/
theorem chainSeg_of_chainWalk (fl : List (Option Nat)) :
    ∀ (l : List Nat) (fuel : Nat) (p : Option Nat),
      chainWalk fl fuel p = some l → ChainSeg fl p l none := by
  intro l
  induction l with
  | nil =>
    intro fuel p h
    cases p with
    | none => rfl
    | some i =>
      obtain ⟨_, _, _, _, _, _, hl⟩ := chainWalk_some_cons fl fuel i _ h
      cases hl
  | cons a t ih =>
    intro fuel p h
    cases p with
    | none => cases fuel <;> simp [chainWalk] at h
    | some i =>
      obtain ⟨f, nx, t1, _, hnx, ht, hl⟩ := chainWalk_some_cons fl fuel i _ h
      injection hl with h1 h2
      subst h1 h2
      exact ⟨rfl, nx, hnx, ih f nx ht⟩

/-- A walk to null is listed by the chain walk with one step for each slot. -/
theorem chainWalk_of_chainSeg (fl : List (Option Nat)) :
    ∀ (l : List Nat) (p : Option Nat),
      ChainSeg fl p l none → chainWalk fl l.length p = some l := by
  intro l
  induction l with
  | nil =>
    intro p h
    rw [chainSeg_nil] at h
    subst h
    rfl
  | cons a t ih =>
    intro p h
    obtain ⟨hp, nx, hnx, ht⟩ := h
    subst hp
    simp only [List.length_cons]
    unfold chainWalk
    rw [hnx]
    simp only
    rw [ih nx ht]
    rfl

/-- A walk over two lists, one after the other, is a walk over the first to some
pointer followed by a walk over the second from that pointer. -/
theorem chainSeg_append (fl : List (Option Nat)) :
    ∀ (A B : List Nat) (p q : Option Nat),
      ChainSeg fl p (A ++ B) q ↔ ∃ r, ChainSeg fl p A r ∧ ChainSeg fl r B q := by
  intro A
  induction A with
  | nil =>
    intro B p q
    simp only [List.nil_append, chainSeg_nil]
    constructor
    · intro h; exact ⟨p, rfl, h⟩
    · rintro ⟨r, rfl, h⟩; exact h
  | cons a t ih =>
    intro B p q
    simp only [List.cons_append, chainSeg_cons]
    constructor
    · rintro ⟨hp, nx, hnx, h⟩
      obtain ⟨r, h1, h2⟩ := (ih B nx q).1 h
      exact ⟨r, ⟨hp, nx, hnx, h1⟩, h2⟩
    · rintro ⟨r, ⟨hp, nx, hnx, h1⟩, h2⟩
      exact ⟨hp, nx, hnx, (ih B nx q).2 ⟨r, h1, h2⟩⟩

/-- Writing the link of a slot that a walk does not visit keeps the walk. -/
theorem chainSeg_set (fl : List (Option Nat)) (x : Nat) (v : Option Nat) :
    ∀ (A : List Nat) (p q : Option Nat), x ∉ A →
      ChainSeg fl p A q → ChainSeg (fl.set x v) p A q := by
  intro A
  induction A with
  | nil => intro p q _ h; exact h
  | cons a t ih =>
    intro p q hx h
    obtain ⟨hp, nx, hnx, ht⟩ := h
    have hne : x ≠ a := fun h => hx (h ▸ List.mem_cons_self _ _)
    refine ⟨hp, nx, ?_, ih nx q (fun h => hx (List.mem_cons_of_mem _ h)) ht⟩
    rw [List.getElem?_set_ne hne]
    exact hnx

/-- In a strictly increasing chain cut around a segment of consecutive indices,
the entries before the segment are below it and the entries after it are
above it. -/
theorem split_bounds (before rest : List Nat) (cand len : Nat) (hlen : 1 ≤ len)
    (hs : (before ++ List.range' cand len ++ rest).Pairwise (· < ·)) :
    (∀ x ∈ before, x < cand) ∧ (∀ x ∈ rest, cand + len ≤ x) := by
  rw [List.pairwise_append] at hs
  obtain ⟨h1, _, h3⟩ := hs
  rw [List.pairwise_append] at h1
  obtain ⟨_, _, h4⟩ := h1
  refine ⟨fun x hx => h4 x hx cand (by simp; omega), fun x hx => ?_⟩
  have := h3 (cand + len - 1) (by simp; omega) x hx
  omega

/-- Membership in a chain cut around a segment of consecutive indices. -/
theorem mem_split (before rest : List Nat) (cand len x : Nat) :
    x ∈ before ++ List.range' cand len ++ rest
      ↔ x ∈ before ∨ (cand ≤ x ∧ x < cand + len) ∨ x ∈ rest := by
  simp [List.mem_append, or_assoc]

/-- Loop invariant of the run search of allocate on a strictly increasing chain:
the chain is the entries before the candidate, the candidate segment (the
areaLength consecutive indices from candidate to tail) and the entries after
tail; no run of n starts below candidate; prev is the entry before candidate
when there is one. The loop ends within one iteration for each entry after
tail: with nullptr when no run of n exists, otherwise at the lowest run. -/
theorem runSearch_spec (fl : List (Option Nat)) (n : Nat) (l : List Nat)
    (hsorted : l.Pairwise (· < ·)) :
    ∀ (rest before : List Nat) (cand len tail prev fuel : Nat),
      l = before ++ List.range' cand len ++ rest →
      1 ≤ len → len ≤ n → tail + 1 = cand + len →
      ChainSeg fl (some tail) (tail :: rest) none →
      (∀ c, c < cand → ¬ hasRun l n c) →
      rest.length + 1 ≤ fuel →
      (before = [] ∨ ∃ A, before = A ++ [prev]) →
      (allocateLoop fl n fuel prev cand tail len = Outcome.ret none ∧ ∀ c, ¬ hasRun l n c)
        ∨ ∃ prev1 c t before1 rest1,
            allocateLoop fl n fuel prev cand tail len = Outcome.ret (some (prev1, c, t))
              ∧ l = before1 ++ List.range' c n ++ rest1
              ∧ t + 1 = c + n
              ∧ ChainSeg fl (some t) (t :: rest1) none
              ∧ (∀ c1, c1 < c → ¬ hasRun l n c1)
              ∧ (before1 = [] ∨ ∃ A, before1 = A ++ [prev1]) := by
  intro rest
  induction rest with
  | nil =>
    intro before cand len tail prev fuel hl hlen1 hlenn htail hchain hmin hfuel hprev
    obtain ⟨_, nx, hnx, hrest⟩ := hchain
    rw [chainSeg_nil] at hrest
    subst hrest
    obtain ⟨f, rfl⟩ : ∃ f, fuel = f + 1 := ⟨fuel - 1, by omega⟩
    by_cases hlt : len < n
    · left
      refine ⟨?_, ?_⟩
      · unfold allocateLoop
        rw [if_pos hlt, hnx]
      · intro c hrun
        by_cases hc : c < cand
        · exact hmin c hc hrun
        · have hb := split_bounds before [] cand len hlen1 (hl ▸ hsorted)
          have h0 := hrun 0 (by omega)
          rw [hl, mem_split] at h0
          simp only [Nat.add_zero, List.not_mem_nil, or_false] at h0
          have hcl : c < cand + len := by
            rcases h0 with h | h
            · exact absurd (hb.1 c h) hc
            · exact h.2
          have h1 := hrun (cand + len - c) (by omega)
          rw [hl, mem_split] at h1
          simp only [List.not_mem_nil, or_false] at h1
          rcases h1 with h | h
          · have := hb.1 _ h
            omega
          · omega
    · right
      have hn : len = n := by omega
      subst hn
      refine ⟨prev, cand, tail, before, [], ?_, hl, htail, ⟨rfl, none, hnx, rfl⟩, hmin, hprev⟩
      unfold allocateLoop
      rw [if_neg hlt]
  | cons m rest ih =>
    intro before cand len tail prev fuel hl hlen1 hlenn htail hchain hmin hfuel hprev
    obtain ⟨_, nx, hnx, hrest⟩ := hchain
    have hrest0 := hrest
    obtain ⟨hm, _⟩ := hrest
    subst hm
    obtain ⟨f, rfl⟩ : ∃ f, fuel = f + 1 := ⟨fuel - 1, by omega⟩
    simp only [List.length_cons] at hfuel
    have hb := split_bounds before (m :: rest) cand len hlen1 (hl ▸ hsorted)
    have hmge : cand + len ≤ m := hb.2 m (List.mem_cons_self _ _)
    have hsm := split_bounds (before ++ List.range' cand len) rest m 1 (Nat.le_refl _) (by
      have := hsorted
      rw [hl] at this
      simpa using this)
    have hrestge : ∀ x ∈ m :: rest, m ≤ x := by
      intro x hx
      rcases List.mem_cons.mp hx with h | h
      · omega
      · have := hsm.2 x h
        omega
    by_cases hlt : len < n
    · unfold allocateLoop
      rw [if_pos hlt, hnx]
      simp only
      by_cases hgap : tail + 1 ≠ m
      · rw [if_pos hgap]
        obtain ⟨k, rfl⟩ : ∃ k, len = k + 1 := ⟨len - 1, by omega⟩
        have hlast : List.range' cand (k + 1) = List.range' cand k ++ [tail] := by
          rw [List.range'_concat]
          congr 2
          omega
        refine ih (before ++ List.range' cand (k + 1)) m 1 m tail f ?_ (Nat.le_refl _)
          (by omega) rfl hrest0 ?_ (by omega) ?_
        · rw [hl]
          simp
        · intro c hc hrun
          by_cases hc1 : c < cand
          · exact hmin c hc1 hrun
          · have h0 := hrun 0 (by omega)
            rw [hl, mem_split] at h0
            simp only [Nat.add_zero] at h0
            have hcl : c < cand + (k + 1) := by
              rcases h0 with h | h | h
              · exact absurd (hb.1 c h) hc1
              · exact h.2
              · have := hrestge c h
                omega
            have h1 := hrun (cand + (k + 1) - c) (by omega)
            rw [hl, mem_split] at h1
            rcases h1 with h | h | h
            · have := hb.1 _ h
              omega
            · omega
            · have := hrestge _ h
              omega
        · right
          exact ⟨before ++ List.range' cand k, by rw [hlast]; simp⟩
      · rw [if_neg hgap]
        have hm : tail + 1 = m := by omega
        refine ih before cand (len + 1) m prev f ?_ (by omega) (by omega) (by omega) hrest0
          hmin (by omega) hprev
        rw [hl, List.range'_concat]
        have : cand + 1 * len = m := by omega
        rw [this]
        simp
    · right
      have hn : len = n := by omega
      subst hn
      refine ⟨prev, cand, tail, before, m :: rest, ?_, hl, htail,
        ⟨rfl, some m, hnx, hrest0⟩, hmin, hprev⟩
      unfold allocateLoop
      rw [if_neg hlt]

/-- C16: in every state of the free-list subsystem whose free chain l is
strictly increasing and ends in null, allocate(n) with n >= 1 ends within N
loop iterations. Either the chain holds no n entries with consecutive indices
and the call returns no-space with the state unchanged; or the call returns
the block at c, the lowest index with c, ..., c + n - 1 all on the chain, and
the new free chain is the old one with exactly those n entries removed, the
other entries in their order (so it is still strictly increasing). -/
theorem C16_allocate_first_fit (s : LinkedListAllocationSubsystem) (n fuel fuel0 : Nat)
    (l : List Nat) (hl : chainWalk s.freeList fuel0 s.freeListTop = some l)
    (hsorted : l.Pairwise (· < ·)) (hn : 1 ≤ n) (hfuel : s.kAllocatableObjectCount ≤ fuel) :
    ((∀ c, ¬ hasRun l n c) ∧ allocate fuel s n = Outcome.ret (none, s))
      ∨ ∃ c before rest s1,
          l = before ++ List.range' c n ++ rest
            ∧ hasRun l n c
            ∧ (∀ c1, c1 < c → ¬ hasRun l n c1)
            ∧ allocate fuel s n = Outcome.ret (some (s.first + (c : Int)), s1)
            ∧ s1.first = s.first ∧ s1.freeList.length = s.freeList.length
            ∧ chainWalk s1.freeList (before ++ rest).length s1.freeListTop
                = some (before ++ rest)
            ∧ (before ++ rest).Pairwise (· < ·) := by
  have hchain := chainSeg_of_chainWalk s.freeList l fuel0 _ hl
  have hmemlt := chainWalk_mem_lt s.freeList l fuel0 _ hl
  have hlen : l.length ≤ s.freeList.length - 0 :=
    pairwise_lt_length_le l 0 _ hsorted (fun x hx => ⟨Nat.zero_le x, hmemlt x hx⟩)
  unfold kAllocatableObjectCount at hfuel
  cases l with
  | nil =>
    left
    rw [chainSeg_nil] at hchain
    refine ⟨fun c hrun => ?_, ?_⟩
    · have := hrun 0 (by omega)
      simp at this
    · unfold allocate
      rw [hchain]
  | cons a rest0 =>
    have htop : s.freeListTop = some a := hchain.1
    have hb0 := split_bounds [] rest0 a 1 (Nat.le_refl _) (by simpa using hsorted)
    have hspec := runSearch_spec s.freeList n (a :: rest0) hsorted rest0 [] a 1 a a fuel
      (by simp) (Nat.le_refl _) hn rfl (htop ▸ hchain)
      (fun c hc hrun => by
        have h0 := hrun 0 (by omega)
        rcases List.mem_cons.mp h0 with h | h
        · omega
        · have := hb0.2 _ h
          omega)
      (by simp only [List.length_cons] at hlen; omega) (Or.inl rfl)
    rcases hspec with ⟨hloop, hno⟩ | ⟨prev1, c, t, before1, rest1, hloop, hsplit, ht, hseg, hmin, hprev⟩
    · left
      refine ⟨hno, ?_⟩
      unfold allocate
      rw [htop]
      simp only
      rw [hloop]
    · right
      obtain ⟨_, tn, htn, hrest1⟩ := hseg
      have hb := split_bounds before1 rest1 c n hn (hsplit ▸ hsorted)
      have hrun : hasRun (a :: rest0) n c := by
        intro j hj
        rw [hsplit, mem_split]
        right; left
        omega
      have hpw : (before1 ++ rest1).Pairwise (· < ·) := by
        have h1 := hsorted
        rw [hsplit, List.pairwise_append] at h1
        obtain ⟨h2, h3, _⟩ := h1
        rw [List.pairwise_append] at h2
        rw [List.pairwise_append]
        refine ⟨h2.1, h3, fun x hx y hy => ?_⟩
        have := hb.1 x hx
        have := hb.2 y hy
        omega
      rcases hprev with hnil | ⟨A, hA⟩
      · subst hnil
        have hca : c = a := by
          obtain ⟨k, rfl⟩ : ∃ k, n = k + 1 := ⟨n - 1, by omega⟩
          rw [List.range'_succ] at hsplit
          simp only [List.nil_append, List.cons_append] at hsplit
          injection hsplit with h1 _
          exact h1.symm
        refine ⟨c, [], rest1, { s with freeListTop := tn }, hsplit, hrun, hmin, ?_, rfl, rfl, ?_, hpw⟩
        · unfold allocate
          rw [htop]
          simp only
          rw [hloop]
          simp only
          rw [htn]
          simp only
          rw [if_pos hca]
        · simp only [List.nil_append]
          exact chainWalk_of_chainSeg s.freeList rest1 tn hrest1
      · subst hA
        have hamem : a ∈ A ++ [prev1] := by
          cases A with
          | nil =>
            simp only [List.nil_append, List.cons_append] at hsplit
            injection hsplit with h1 _
            simp [h1]
          | cons a0 A0 =>
            simp only [List.cons_append] at hsplit
            injection hsplit with h1 _
            simp [h1]
        have hne : c ≠ a := by
          have := hb.1 a hamem
          omega
        have hprevlt : prev1 < s.freeList.length :=
          hmemlt prev1 (by rw [hsplit]; simp)
        have hprevc : prev1 < c := hb.1 prev1 (by simp)
        have hAlt : ∀ x ∈ A, x < prev1 := by
          have h1 := hsorted
          rw [hsplit, List.pairwise_append] at h1
          obtain ⟨h2, _, _⟩ := h1
          rw [List.pairwise_append] at h2
          obtain ⟨h3, _, _⟩ := h2
          rw [List.pairwise_append] at h3
          exact fun x hx => h3.2.2 x hx prev1 (by simp)
        refine ⟨c, A ++ [prev1], rest1,
          { s with freeList := s.freeList.set prev1 tn }, hsplit, hrun, hmin, ?_, rfl, ?_, ?_, hpw⟩
        · unfold allocate
          rw [htop]
          simp only
          rw [hloop]
          simp only
          rw [htn]
          simp only
          rw [if_neg hne, if_pos hprevlt]
        · simp
        · apply chainWalk_of_chainSeg
          simp only
          rw [htop] at hchain
          rw [hsplit, List.append_assoc, List.append_assoc, chainSeg_append] at hchain
          obtain ⟨r, hA1, hA2⟩ := hchain
          rw [htop, List.append_assoc, chainSeg_append]
          refine ⟨r, chainSeg_set _ _ _ A _ _ (fun h => by have := hAlt _ h; omega) hA1, ?_⟩
          obtain ⟨hr, _⟩ := hA2
          refine ⟨hr, tn, ?_, chainSeg_set _ _ _ rest1 _ _
            (fun h => by have := hb.2 _ h; omega) hrest1⟩
          rw [List.getElem?_set_self hprevlt]

/-- Witness of C16: capacity 8 with free chain 2, 4, 6, 7; allocate(2) returns
block 6 and leaves the free chain 2, 4. -/
theorem C16_allocate_first_fit_witness :
    chainWalk [some 1, some 2, some 4, some 4, some 6, some 6, some 7, none] 8 (some 2)
        = some [2, 4, 6, 7]
      ∧ allocate 8
          { freeList := [some 1, some 2, some 4, some 4, some 6, some 6, some 7, none],
            freeListTop := some 2, first := 1000 } 2
        = Outcome.ret (some 1006,
          { freeList := [some 1, some 2, some 4, some 4, none, some 6, some 7, none],
            freeListTop := some 2, first := 1000 })
      ∧ chainWalk [some 1, some 2, some 4, some 4, none, some 6, some 7, none] 8 (some 2)
        = some [2, 4]
      ∧ (((∀ c, ¬ hasRun [2, 4, 6, 7] 2 c)
          ∧ allocate 8
              { freeList := [some 1, some 2, some 4, some 4, some 6, some 6, some 7, none],
                freeListTop := some 2, first := 1000 } 2
            = Outcome.ret (none,
              { freeList := [some 1, some 2, some 4, some 4, some 6, some 6, some 7, none],
                freeListTop := some 2, first := 1000 }))
        ∨ ∃ c before rest s1,
            [2, 4, 6, 7] = before ++ List.range' c 2 ++ rest
              ∧ hasRun [2, 4, 6, 7] 2 c
              ∧ (∀ c1, c1 < c → ¬ hasRun [2, 4, 6, 7] 2 c1)
              ∧ allocate 8
                  { freeList := [some 1, some 2, some 4, some 4, some 6, some 6, some 7, none],
                    freeListTop := some 2, first := 1000 } 2
                = Outcome.ret (some ((1000 : Int) + (c : Int)), s1)
              ∧ s1.first = 1000 ∧ s1.freeList.length = 8
              ∧ chainWalk s1.freeList (before ++ rest).length s1.freeListTop
                  = some (before ++ rest)
              ∧ (before ++ rest).Pairwise (· < ·)) :=
  ⟨by decide, by decide, by decide,
    C16_allocate_first_fit
      { freeList := [some 1, some 2, some 4, some 4, some 6, some 6, some 7, none],
        freeListTop := some 2, first := 1000 } 2 8 8 [2, 4, 6, 7]
      (by decide) (by decide) (by decide) (by decide)⟩

end LinkedListAllocationSubsystem

/-! ## Bitmask subsystem: block 63 -/

namespace BitAllocationSubsystem

/-- With the zero mask (a request of 0 or of more than 64 blocks) the search
loop either does not run or stops in its first iteration with the word as it
was. -/
theorem allocateLoop_zero_mask (w : Nat) :
    ∀ (k i : Nat), allocateLoop w k i 0 = none ∨ allocateLoop w k i 0 = some (i, w) := by
  intro k i
  cases k with
  | zero => left; rfl
  | succ k =>
    right
    unfold allocateLoop
    simp

/-- Allocate with any argument keeps bit 63 clear and the bucket address as
it was. -/
theorem allocate_keeps_bit63 (s : BitAllocationSubsystem) (n : Nat)
    (h : s.freeBlockList.testBit 63 = false) :
    (s.allocate n).2.freeBlockList.testBit 63 = false ∧ (s.allocate n).2.first = s.first := by
  by_cases hn : 1 ≤ n ∧ n ≤ 64
  · rcases allocate_spec s n hn.1 hn.2 with ⟨h1, _⟩ | ⟨j, hj, _, _, h1⟩
    · rw [h1]; exact ⟨h, rfl⟩
    · rw [h1]
      refine ⟨?_, rfl⟩
      simp only
      rw [Nat.testBit_or, h, Nat.testBit_shiftLeft, testBit_NBit n _ hn.2]
      have : ¬ (63 - j < n) := by omega
      simp [this]
  · have hbit : NBit n = 0 := by
      unfold NBit
      rw [if_neg hn]
    unfold allocate
    split
    · exact ⟨h, rfl⟩
    · rw [hbit]
      rcases allocateLoop_zero_mask s.freeBlockList (loopBound n) 0 with h1 | h1
      · rw [h1]; exact ⟨h, rfl⟩
      · rw [h1]; exact ⟨h, rfl⟩

/-- Deallocate with any arguments keeps bit 63 clear and the bucket address
as it was. -/
theorem deallocate_keeps_bit63 (s : BitAllocationSubsystem) (ptr : Int) (n : Nat)
    (h : s.freeBlockList.testBit 63 = false) :
    (s.deallocate ptr n).2.freeBlockList.testBit 63 = false
      ∧ (s.deallocate ptr n).2.first = s.first := by
  unfold deallocate
  simp only
  split
  · exact ⟨h, rfl⟩
  · split
    · exact ⟨h, rfl⟩
    · refine ⟨?_, rfl⟩
      simp only
      rw [Nat.testBit_and, h]
      rfl

/-- Bit 63 is clear after every sequence of calls on a fresh subsystem. -/
theorem run_bit63 (first : Int) (ops : List Op) :
    (run first ops).freeBlockList.testBit 63 = false ∧ (run first ops).first = first := by
  unfold run
  induction ops using List.reverseRecOn with
  | nil => exact ⟨by simp [new], rfl⟩
  | append_singleton ops op ih =>
    rw [List.foldl_append]
    simp only [List.foldl_cons, List.foldl_nil]
    cases op with
    | allocate n =>
      have := allocate_keeps_bit63 _ n ih.1
      exact ⟨this.1, this.2.trans ih.2⟩
    | deallocate ptr n =>
      have := deallocate_keeps_bit63 _ ptr n ih.1
      exact ⟨this.1, this.2.trans ih.2⟩

/-- In every state reached from a fresh bitmask subsystem by a sequence of
allocate(n) and deallocate(p, n) calls with arbitrary arguments, bit 63 of
the occupancy word is clear and the word differs from all ones (the
saturation test of allocate is false), and no allocate(n) call with n <= 64
returns a run that contains block 63. -/
theorem bit63_never_set (first : Int) (ops : List Op) :
    (run first ops).freeBlockList.testBit 63 = false
      ∧ (run first ops).freeBlockList ≠ 0xffffffffffffffff
      ∧ ∀ (n : Nat) (p : Int), n ≤ 64 → ((run first ops).allocate n).1 = some p →
          ¬ (p ≤ first + 63 ∧ first + 63 < p + (n : Int)) := by
  obtain ⟨hbit, hfirst⟩ := run_bit63 first ops
  refine ⟨hbit, ?_, ?_⟩
  · intro hsat
    rw [hsat] at hbit
    revert hbit
    decide
  · intro n p hn hp hcov
    by_cases hn1 : 1 ≤ n
    · rcases allocate_spec (run first ops) n hn1 hn with ⟨h1, _⟩ | ⟨j, hj, _, _, h1⟩
      · rw [h1] at hp
        cases hp
      · rw [h1] at hp
        simp only [Option.some.injEq] at hp
        rw [hfirst] at hp
        omega
    · omega

/-- An instance of bit63_never_set: after allocate(62) on a fresh subsystem,
allocate(1) returns block 62, a run that does not contain block 63, and bit
63 is clear after a sequence with arguments 0, 64 and 65. -/
theorem bit63_never_set_instance :
    ((run 1000 [Op.allocate 62]).allocate 1).1 = some 1062
      ∧ ¬ ((1062 : Int) ≤ 1000 + 63 ∧ (1000 : Int) + 63 < 1062 + ((1 : Nat) : Int))
      ∧ (run 1000 [Op.allocate 62, Op.allocate 1, Op.deallocate 1000 64, Op.allocate 0,
          Op.allocate 65]).freeBlockList.testBit 63 = false :=
  have hp : ((run 1000 [Op.allocate 62]).allocate 1).1 = some 1062 := by decide
  ⟨hp, (bit63_never_set 1000 [Op.allocate 62]).2.2 1 1062 (by decide) hp,
    (bit63_never_set 1000 [Op.allocate 62, Op.allocate 1, Op.deallocate 1000 64,
      Op.allocate 0, Op.allocate 65]).1⟩

/-- C21, the code at the failing input: in the state reached from a fresh
subsystem (bucket at 1000) by allocate(3), allocate(100) returns block 0, and
the run of 100 blocks from block 0 contains block 63. -/
theorem C21_oversized_run_covers_block63 :
    (run 1000 [Op.allocate 3]).first = 1000
      ∧ ((run 1000 [Op.allocate 3]).allocate 100).1 = some 1000
      ∧ ((1000 : Int) ≤ 1000 + 63 ∧ (1000 : Int) + 63 < 1000 + ((100 : Nat) : Int)) := by
  decide

end BitAllocationSubsystem

end Black
